import Mathlib

/-!
# Verification of the `huffman-dev` codec

Shallow embedding of the Huffman file compressor / decompressor
(`src/huffman-01/enc.c`, `src/huffman-01/dec.c`, `src/huffman/pqueue.h`,
and the older variant `src/huffman-00/{enc,dec}.c`).

Bytes and machine integers are modelled as `Nat`.  Bit-level operations on
`uint8` values carry an explicit `% 256`; the CRC32 accumulator stays below
`2 ^ 32` by construction.  Frequency counters (`uint32_t freq[256]`) and the
code accumulator of `generateCodes` (`uint32_t code`) are modelled as exact
naturals: all behaviour covered by the theorems below keeps these values
inside 32 bits, where the C program agrees with the exact model (beyond
32 bits the shifts in `generateCodes` are undefined behaviour in C).

Loops whose measure is not structural take an explicit fuel argument,
always initialised at the call site to a bound strictly larger than the
number of iterations the loop can perform, so that every definition is
executable by the kernel.
-/

/-- `struct node` from `pqueue.h`.  The C node holds two possibly-NULL child
pointers; the four constructors are the four NULL-patterns, and `Node.left` /
`Node.right` below recover the pointer view. -/
inductive Node : Type where
  | leaf (ch : Nat) (freq : Nat)
  | two (ch : Nat) (freq : Nat) (l : Node) (r : Node)
  | onlyL (ch : Nat) (freq : Nat) (l : Node)
  | onlyR (ch : Nat) (freq : Nat) (r : Node)
deriving DecidableEq, Repr

def Node.ch : Node → Nat
  | .leaf c _ => c
  | .two c _ _ _ => c
  | .onlyL c _ _ => c
  | .onlyR c _ _ => c

def Node.freq : Node → Nat
  | .leaf _ f => f
  | .two _ f _ _ => f
  | .onlyL _ f _ => f
  | .onlyR _ f _ => f

def Node.left : Node → Option Node
  | .leaf _ _ => none
  | .two _ _ l _ => some l
  | .onlyL _ _ l => some l
  | .onlyR _ _ _ => none

def Node.right : Node → Option Node
  | .leaf _ _ => none
  | .two _ _ _ r => some r
  | .onlyL _ _ _ => none
  | .onlyR _ _ r => some r

/-- `newNode(ch, freq, l, r)` from `pqueue.h` (allocation failure is not
modelled). -/
def newNode (ch : Nat) (freq : Nat) : Option Node → Option Node → Node
  | none, none => .leaf ch freq
  | some l, some r => .two ch freq l r
  | some l, none => .onlyL ch freq l
  | none, some r => .onlyR ch freq r

/-- Default node used for out-of-range heap reads (never reached on the
paths the theorems cover). -/
def dfltNode : Node := .leaf 0 0

/-- A strict tree: every node has either two children or none.  This is the
shape property the spec claims for built Huffman trees. -/
def strictB : Node → Bool
  | .leaf _ _ => true
  | .two _ _ l r => strictB l && strictB r
  | .onlyL _ _ _ => false
  | .onlyR _ _ _ => false

/-- Multiset of the symbols at the leaves of a tree. -/
def leafChs : Node → Multiset Nat
  | .leaf c _ => {c}
  | .two _ _ l r => leafChs l + leafChs r
  | .onlyL _ _ l => leafChs l
  | .onlyR _ _ r => leafChs r

/-- Number of nodes of a tree. -/
def sizeNode : Node → Nat
  | .leaf _ _ => 1
  | .two _ _ l r => 1 + sizeNode l + sizeNode r
  | .onlyL _ _ l => 1 + sizeNode l
  | .onlyR _ _ r => 1 + sizeNode r

/-! ## Priority queue (`pqueue.h`)

The C heap is a 1-indexed array `heap[1..n]`; we model it as a
`List Node` whose element `k` (1-based) is `hGet l k`. -/

/-- 1-based heap read (`pq->heap[k]`). -/
def hGet (l : List Node) (k : Nat) : Node := l.getD (k - 1) dfltNode

/-- 1-based heap write (`pq->heap[k] = x`). -/
def hSet (l : List Node) (k : Nat) (x : Node) : List Node := l.set (k - 1) x

/-- Percolate-up loop of `PQinsert`.  The loop runs at most `k` times (the
index halves each iteration), so any `fuel ≥ k` gives the exact C behaviour;
the fuel-exhausted branch coincides with the loop exit. -/
def percUp (fuel : Nat) (l : List Node) (k : Nat) (item : Node) : List Node :=
  match fuel with
  | 0 => hSet l k item
  | fuel + 1 =>
    if 1 < k ∧ (hGet l (k / 2)).freq > item.freq then
      percUp fuel (hSet l k (hGet l (k / 2))) (k / 2) item
    else hSet l k item

/-- `PQinsert` from `pqueue.h`; both programs create the queue with
`PQinit(MAXN)`, `MAXN = 256`, so the capacity guard is the literal 256. -/
def PQinsert (l : List Node) (item : Node) : List Node :=
  if l.length ≥ 256 then l
  else percUp (l.length + 1) (l ++ [item]) (l.length + 1) item

/-- The index `j` computed inside the `PQdelmin` percolate loop: the smaller
child of slot `k` (`j = 2k`, bumped to `2k+1` when that child is smaller). -/
def smallerChild (l : List Node) (k : Nat) : Nat :=
  if 2 * k < l.length ∧ (hGet l (2 * k)).freq > (hGet l (2 * k + 1)).freq
  then 2 * k + 1 else 2 * k

/-- Percolate-down loop of `PQdelmin`, acting on the first `n` live slots
(`l` has exactly the live slots).  The index at least doubles each
iteration, so `fuel = l.length + 1` is enough for the exact C behaviour. -/
def percDown (fuel : Nat) (l : List Node) (last : Node) (k : Nat) : List Node :=
  match fuel with
  | 0 => hSet l k last
  | fuel + 1 =>
    if 2 * k ≤ l.length then
      if last.freq ≤ (hGet l (smallerChild l k)).freq then hSet l k last
      else percDown fuel (hSet l k (hGet l (smallerChild l k))) last (smallerChild l k)
    else hSet l k last

/-- `PQdelmin` from `pqueue.h`: returns the minimum (`heap[1]`) and the heap
after removal; `none` on an empty queue (C returns NULL). -/
def PQdelmin (l : List Node) : Option (Node × List Node) :=
  match l with
  | [] => none
  | x :: xs =>
    match xs with
    | [] => some (x, [])
    | _ :: _ =>
      let last := xs.getLastD x
      let live := (x :: xs).dropLast
      some (x, percDown (live.length + 1) live last 1)

/-! ## Tree construction (`enc.c` / `dec.c`, `buildHuffmanTree`)

`huffman-01`'s encoder and decoder contain the identical function. -/

/-- The initial insertion loop of `buildHuffmanTree`:
`for i in 0..255: if (freq[i] > 0) { PQinsert(newNode(i, freq[i])); symbols++ }`.
Returns the heap and the `symbols` counter. -/
def initHeap (freq : Nat → Nat) : List Node × Nat :=
  (List.range 256).foldl
    (fun acc i =>
      if freq i > 0 then (PQinsert acc.1 (newNode i (freq i) none none), acc.2 + 1)
      else acc)
    ([], 0)

/-- The merge loop of `buildHuffmanTree`:
`while (symbols > 1) { left = PQdelmin; right = PQdelmin;
merged = newNode(0, left->freq + right->freq, left, right); PQinsert; symbols--; }`
followed by `root = PQdelmin(pq)`.  A NULL from `PQdelmin` (empty heap, which
would crash the C program) is modelled as `none`. -/
def huffLoop : List Node → Nat → Option Node
  | pq, 0 => (PQdelmin pq).map Prod.fst
  | pq, 1 => (PQdelmin pq).map Prod.fst
  | pq, symbols + 2 =>
    match PQdelmin pq with
    | none => none
    | some (left, pq1) =>
      match PQdelmin pq1 with
      | none => none
      | some (right, pq2) =>
        huffLoop (PQinsert pq2 (newNode 0 (left.freq + right.freq) (some left) (some right)))
          (symbols + 1)

/-- `buildHuffmanTree` from `huffman-01` (`enc.c:137` = `dec.c:131`):
`none` when no symbol has positive frequency. -/
def buildHuffmanTree (freq : Nat → Nat) : Option Node :=
  let pq := (initHeap freq).1
  let symbols := (initHeap freq).2
  if symbols = 0 then none
  else if symbols = 1 then (PQdelmin pq).map Prod.fst
  else huffLoop pq symbols

/-! ## Code generation (`enc.c`, `generateCodes`) -/

/-- `generateCodes` from `enc.c:174`: depth-first traversal writing, for each
leaf, the pair (accumulated code bits, depth) into `codes[ch]`.  We record the
sequence of writes `(ch, code, depth)` in traversal order; the array state is
recovered by `codeTable` (last write wins).  The C accumulator is a `uint32_t`
and its packed-byte round-trip through `CodeEntry.code` reproduces exactly the
bits `(code >> (depth-1-i)) & 1`; we keep `code` as an exact natural. -/
def generateCodes : Node → Nat → Nat → List (Nat × Nat × Nat)
  | .leaf c _, code, depth => [(c, code, depth)]
  | .two _ _ l r, code, depth =>
    generateCodes l (2 * code) (depth + 1) ++ generateCodes r (2 * code + 1) (depth + 1)
  | .onlyL _ _ l, code, depth => generateCodes l (2 * code) (depth + 1)
  | .onlyR _ _ r, code, depth => generateCodes r (2 * code + 1) (depth + 1)

/-- The `codes[]` array after `generateCodes(root, codes, 0, 0)`: the value
for symbol `s` is the last write with that symbol (`none` = never written,
i.e. the C entry `{NULL, 0}` left by `memset`). -/
def codeTable (t : Node) (s : Nat) : Option (Nat × Nat) :=
  (((generateCodes t 0 0).filter (fun e => e.1 = s)).getLast?).map (fun e => e.2)

/-- The code table as `main` (`enc.c:369`) builds it: `generateCodes` for a
root with children, else the single-symbol special case
`codes[root->ch] = {one zero bit, len 1}`. -/
def mainCodes (root : Node) (s : Nat) : Option (Nat × Nat) :=
  if root.left ≠ none ∨ root.right ≠ none then codeTable root s
  else if s = root.ch then some (0, 1) else none

/-- The bits `(code >> (len-1-i)) & 1`, `i = 0 .. len-1`: the bit string a
`CodeEntry` denotes, in the order `compress` writes it. -/
def codeBits (code : Nat) (len : Nat) : List Nat :=
  (List.range len).map (fun i => (code >>> (len - 1 - i)) &&& 1)

/-! ## Bit buffer and `compress` (`enc.c`) -/

/-- `BitBuffer` from `enc.c` (the `capacity` / reallocation machinery only
grows the backing store and is not observable). -/
structure BitBuf where
  data : List Nat
  bit_buffer : Nat
  bits_used : Nat
deriving Repr, DecidableEq

/-- `bitBufferInit`: empty buffer. -/
def bitBufferInit : BitBuf := ⟨[], 0, 0⟩

/-- One iteration of the loop in `bitBufferWriteBits`: shift the accumulator
left, OR in one bit, flush a completed byte.  `bit_buffer` is a `uint8`,
hence the `% 256`. -/
def bitBufferPush (st : BitBuf) (b : Nat) : BitBuf :=
  let bb := (2 * st.bit_buffer ||| b) % 256
  if st.bits_used + 1 = 8 then ⟨st.data ++ [bb], 0, 0⟩
  else ⟨st.data, bb, st.bits_used + 1⟩

/-- `bitBufferWriteBits(buf, bits, count)` from `enc.c:75`: appends bits
`(bits >> i) & 1` for `i = count-1 .. 0`. -/
def bitBufferWriteBits (st : BitBuf) (bits : Nat) (count : Nat) : BitBuf :=
  (List.range count).foldl (fun s i => bitBufferPush s ((bits >>> (count - 1 - i)) &&& 1)) st

/-- `bitBufferFlush` from `enc.c:89`: pad the final byte with zero bits.
Note the C code does not reset `bits_used`; `main` later reads it to compute
`padding_bits`. -/
def bitBufferFlush (st : BitBuf) : BitBuf :=
  if st.bits_used > 0 then
    ⟨st.data ++ [(st.bit_buffer <<< (8 - st.bits_used)) % 256],
      (st.bit_buffer <<< (8 - st.bits_used)) % 256, st.bits_used⟩
  else st

/-- The per-byte body of `compress` (`enc.c:203`): look up the code of one
input byte and write its bits; error (`none`) if the entry has length 0
(which covers the `memset` default `{NULL, 0}`). -/
def compressStep (codes : Nat → Option (Nat × Nat)) (st : BitBuf) (b : Nat) : Option BitBuf :=
  match codes b with
  | none => none
  | some (code, len) =>
    if len = 0 then none
    else some ((List.range len).foldl
      (fun s bit => bitBufferWriteBits s ((code >>> (len - 1 - bit)) &&& 1) 1) st)

/-- The main loop of `compress` over the input bytes. -/
def compressGo (codes : Nat → Option (Nat × Nat)) : List Nat → BitBuf → Option BitBuf
  | [], st => some st
  | b :: rest, st =>
    match compressStep codes st b with
    | none => none
    | some st' => compressGo codes rest st'

/-- `compress` from `enc.c:199`: write every input byte's code, then flush. -/
def compress (data : List Nat) (codes : Nat → Option (Nat × Nat)) : Option BitBuf :=
  (compressGo codes data bitBufferInit).map bitBufferFlush

/-! ## CRC32 (`enc.c` / `dec.c`) -/

/-- One entry of `crc32_table` as computed by `init_crc32`. -/
def crc32_table (i : Nat) : Nat :=
  (List.range 8).foldl
    (fun crc _ => if crc % 2 = 1 then (crc / 2) ^^^ 0xEDB88320 else crc / 2) i

/-- `crc32(data, len)` from `enc.c:118` = `dec.c:88`. -/
def crc32 (data : List Nat) : Nat :=
  (data.foldl (fun crc b => crc32_table ((crc ^^^ b) % 256) ^^^ (crc / 256)) 0xFFFFFFFF)
    ^^^ 0xFFFFFFFF

/-! ## Container layout (`HuffHeader`, `FreqEntry`)

The packed structs are written to the file byte-for-byte; all fields are
little-endian (x86 ABI, as documented in the spec's layout table). -/

/-- `HuffHeader` from `enc.c` / `dec.c` with exact-`Nat` fields. -/
structure HuffHeader where
  magic : Nat
  version : Nat
  original_size : Nat
  compressed_size : Nat
  checksum : Nat
  tree_size : Nat
  padding_bits : Nat
  reserved : Nat
deriving Repr, DecidableEq

/-- Little-endian serialisation of `n` into `k` bytes (truncating like a
store into a `k`-byte unsigned field). -/
def toLE : Nat → Nat → List Nat
  | 0, _ => []
  | k + 1, n => n % 256 :: toLE k (n / 256)

/-- Little-endian reading of a byte list. -/
def leNat (bs : List Nat) : Nat := bs.foldr (fun b acc => b + 256 * acc) 0

/-- The 30 bytes of a packed `HuffHeader`. -/
def headerBytes (h : HuffHeader) : List Nat :=
  toLE 4 h.magic ++ toLE 2 h.version ++ toLE 8 h.original_size ++
    toLE 8 h.compressed_size ++ toLE 4 h.checksum ++ toLE 2 h.tree_size ++
    [h.padding_bits % 256, h.reserved % 256]

/-- Parsing the packed `HuffHeader` from (at least) 30 bytes. -/
def parseHeader (bs : List Nat) : HuffHeader :=
  { magic := leNat (bs.take 4)
    version := leNat ((bs.drop 4).take 2)
    original_size := leNat ((bs.drop 6).take 8)
    compressed_size := leNat ((bs.drop 14).take 8)
    checksum := leNat ((bs.drop 22).take 4)
    tree_size := leNat ((bs.drop 26).take 2)
    padding_bits := bs.getD 28 0
    reserved := bs.getD 29 0 }

/-- `writeFreqTable` (`enc.c:233`): one 5-byte `FreqEntry` per nonzero
frequency, in increasing symbol order. -/
def freqTableBytes (freq : Nat → Nat) : List Nat :=
  (((List.range 256).filter (fun i => freq i > 0)).map
    (fun i => i :: toLE 4 (freq i))).flatten

/-- The count `writeFreqTable` returns (`tree_size`). -/
def countEntries (freq : Nat → Nat) : Nat :=
  ((List.range 256).filter (fun i => freq i > 0)).length

/-- `readFreqTable` (`dec.c:116`): start from the all-zero table and assign
`freq[entry.ch] = entry.freq` for each 5-byte entry. -/
def parseFreqTable : List Nat → (Nat → Nat) → (Nat → Nat)
  | b0 :: b1 :: b2 :: b3 :: b4 :: rest, f =>
    parseFreqTable rest (fun s => if s = b0 then leNat [b1, b2, b3, b4] else f s)
  | _, f => f

/-! ## Encoder top level (`enc.c`, `main`) -/

/-- `buildFreqTable` (`enc.c:127`): per-byte occurrence counts. -/
def buildFreqTable (data : List Nat) : Nat → Nat := fun s => data.count s

/-- The codec part of the encoder's `main` (`enc.c:324-433`), producing the
header (with the fixed-up `tree_size`), the frequency-table bytes, and the
payload.  `none` models every error exit: the empty-input rejection
(`file_size <= 0`), a NULL tree, a failed `compress`, and
`writeFreqTable` returning 0. -/
def encodeParts (B : List Nat) : Option (HuffHeader × List Nat × List Nat) :=
  if B.length = 0 then none
  else
    let freq := buildFreqTable B
    match buildHuffmanTree freq with
    | none => none
    | some root =>
      match compress B (mainCodes root) with
      | none => none
      | some st =>
        if countEntries freq = 0 then none
        else
          some ({ magic := 0x48554646
                  version := 1
                  original_size := B.length
                  compressed_size := st.data.length
                  checksum := crc32 B
                  tree_size := countEntries freq
                  padding_bits := if st.bits_used > 0 then 8 - st.bits_used else 0
                  reserved := 0 },
                freqTableBytes freq, st.data)

/-- The bytes of the output file `main` writes. -/
def encodeBytes (B : List Nat) : Option (List Nat) :=
  (encodeParts B).map (fun p => headerBytes p.1 ++ p.2.1 ++ p.2.2)

/-! ## Bit reader and `decompress` (`dec.c`) -/

/-- `BitReader` from `dec.c`. -/
structure BitRd where
  data : List Nat
  size : Nat
  pos : Nat
  bit_buffer : Nat
  bits_available : Nat
deriving Repr, DecidableEq

/-- `bitReaderInit(data, size)`; `size` is the byte count of `data`. -/
def bitReaderInit (d : List Nat) : BitRd := ⟨d, d.length, 0, 0, 0⟩

/-- `bitReaderReadBit` (`dec.c:53`): refill the 8-bit buffer when empty
(`none` = the C return value `-1` at end of data), then shift out the top
bit.  `bit_buffer` is a `uint8`, hence the `% 256`. -/
def bitReaderReadBit (r : BitRd) : Option (Nat × BitRd) :=
  let r1? : Option BitRd :=
    if r.bits_available = 0 then
      if r.pos ≥ r.size then none
      else some { r with bit_buffer := r.data.getD r.pos 0, pos := r.pos + 1,
                         bits_available := 8 }
    else some r
  match r1? with
  | none => none
  | some r1 =>
    some ((r1.bit_buffer >>> 7) &&& 1,
      { r1 with bit_buffer := (r1.bit_buffer <<< 1) % 256,
                bits_available := r1.bits_available - 1 })

/-- Bits still unread by a reader; each successful `bitReaderReadBit`
consumes exactly one, so this bounds the remaining loop iterations. -/
def bitsLeft (r : BitRd) : Nat := (r.size - r.pos) * 8 + r.bits_available

/-- The 64-bit modulus of the C `size_t` arithmetic in the end-of-data check
of `decompress`. -/
def szMod : Nat := 18446744073709551616

/-- The `while (output_pos < original_size)` loop of `decompress`
(`dec.c:186-220`).  The fuel is initialised to `bitsLeft r + 1`; the loop
consumes a bit every iteration, so the `0` case is never reached from
`decompress`.  On end of data the C code computes, in `size_t` arithmetic,
`total_bits - bits_processed` and breaks when it is `≤ padding_bits`
(returning the bytes produced so far; the C buffer keeps `original_size`
bytes of which only the produced prefix was initialised). -/
def decompressLoop (root : Node) : Nat → Node → BitRd → List Nat → Nat → Nat →
    Option (List Nat)
  | 0, _, _, _, _, _ => none
  | fuel + 1, current, r, out, osize, pad =>
    if out.length < osize then
      match bitReaderReadBit r with
      | none =>
        let bits_processed := ((r.pos + (szMod - 1)) % szMod * 8 + (8 - r.bits_available)) % szMod
        let total_bits := r.size * 8 % szMod
        if (total_bits + szMod - bits_processed) % szMod ≤ pad then some out else none
      | some (bit, r') =>
        match (if bit = 0 then current.left else current.right) with
        | none => none
        | some c =>
          if c.left = none ∧ c.right = none then
            if out.length ≥ osize then some out
            else decompressLoop root fuel root r' (out ++ [c.ch]) osize pad
          else decompressLoop root fuel c r' out osize pad
    else some out

/-- `decompress` from `dec.c:168`: NULL tree or zero `original_size` fail;
a single-leaf tree emits its symbol `original_size` times without touching
the reader; otherwise walk the tree bit by bit. -/
def decompress (r : BitRd) (root? : Option Node) (osize : Nat) (pad : Nat) :
    Option (List Nat) :=
  match root? with
  | none => none
  | some root =>
    if osize = 0 then none
    else if root.left = none ∧ root.right = none then some (List.replicate osize root.ch)
    else decompressLoop root (bitsLeft r + 1) root r [] osize pad

/-! ## Decoder top level (`dec.c`, `main`) -/

/-- The codec part of the decoder's `main` (`dec.c:314-403`) on the raw file
bytes: size check against `sizeof(HuffHeader)`, `readHeader` (magic and
`version > 1` validation), `readFreqTable`, payload read of
`compressed_size` bytes, tree rebuild, `decompress`, and the (default-on)
checksum verification.  Every error exit is `none`. -/
def decodeBytes (bs : List Nat) : Option (List Nat) :=
  if bs.length ≤ 30 then none
  else
    let h := parseHeader (bs.take 30)
    if h.magic ≠ 0x48554646 then none
    else if h.version > 1 then none
    else
      let rest := bs.drop 30
      if rest.length < 5 * h.tree_size then none
      else
        let freq := parseFreqTable (rest.take (5 * h.tree_size)) (fun _ => 0)
        let rest2 := rest.drop (5 * h.tree_size)
        if rest2.length < h.compressed_size then none
        else
          let payload := rest2.take h.compressed_size
          match buildHuffmanTree freq with
          | none => none
          | some root =>
            match decompress (bitReaderInit payload) (some root) h.original_size
                h.padding_bits with
            | none => none
            | some out => if crc32 out = h.checksum then some out else none

/-- The decode path from a frequency table and a payload (tree rebuild plus
`decompress`), as `main` chains them. -/
def decodeCore (freq : Nat → Nat) (payload : List Nat) (osize : Nat) (pad : Nat) :
    Option (List Nat) :=
  decompress (bitReaderInit payload) (buildHuffmanTree freq) osize pad

/-! ## Abstract views used by the proofs -/

/-- The bit string a byte list denotes, most-significant bit first
(bit `i` of byte `b` is `(b >> (7-i)) & 1`). -/
def bytesToBits (bs : List Nat) : List Nat :=
  (bs.map (fun b => (List.range 8).map (fun i => (b >>> (7 - i)) &&& 1))).flatten

/-- Unread bits of a reader: the `bits_available` top bits of `bit_buffer`,
then the bytes from `pos` on. -/
def readerBits (r : BitRd) : List Nat :=
  (List.range r.bits_available).map (fun i => (r.bit_buffer >>> (7 - i)) &&& 1) ++
    bytesToBits (r.data.drop r.pos)

/-- Reader well-formedness: `size` is the data length (as `bitReaderInit`
sets it), at most 8 bits are buffered, and the read position never passes
the end. -/
def RdWf (r : BitRd) : Prop :=
  r.size = r.data.length ∧ r.bits_available ≤ 8 ∧ r.pos ≤ r.size

/-- The bits accumulated in a `BitBuf`: flushed bytes, then the
`bits_used` low bits of `bit_buffer` (oldest first). -/
def bufBits (st : BitBuf) : List Nat :=
  bytesToBits st.data ++
    (List.range st.bits_used).map (fun i => (st.bit_buffer >>> (st.bits_used - 1 - i)) &&& 1)

/-- Writer well-formedness: fewer than 8 bits pending and no stray high bits
in the accumulator. -/
def BufWf (st : BitBuf) : Prop := st.bits_used < 8 ∧ st.bit_buffer < 2 ^ st.bits_used

/-- The tree-walk decoder on a plain bit list: the loop of `decompress`
abstracted from the byte-level reader (simulation lemma
`decompressLoop_eq_decodeBits`); running out of bits is the benign break of
the C loop. -/
def decodeBits (root : Node) : Node → List Nat → List Nat → Nat → Option (List Nat)
  | current, bits, out, osize =>
    if out.length < osize then
      match bits with
      | [] => some out
      | b :: rest =>
        match (if b = 0 then current.left else current.right) with
        | none => none
        | some c =>
          if c.left = none ∧ c.right = none then
            if out.length ≥ osize then some out
            else decodeBits root root rest (out ++ [c.ch]) osize
          else decodeBits root c rest out osize
    else some out

/-- Walking a tree along a bit list: bit 0 goes left, anything else right
(the decoder tests `bit == 0`). -/
def subtreeAt : Node → List Nat → Option Node
  | t, [] => some t
  | t, b :: rest =>
    match (if b = 0 then t.left else t.right) with
    | none => none
    | some c => subtreeAt c rest

/-- Leaf entries of a tree as (symbol, root-to-leaf bit path); the
bit-list counterpart of `generateCodes` (bridge lemma
`generateCodes_map_codeBits`). -/
def pathsL : Node → List (Nat × List Nat)
  | .leaf c _ => [(c, [])]
  | .two _ _ l r =>
    (pathsL l).map (fun e => (e.1, 0 :: e.2)) ++ (pathsL r).map (fun e => (e.1, 1 :: e.2))
  | .onlyL _ _ l => (pathsL l).map (fun e => (e.1, 0 :: e.2))
  | .onlyR _ _ r => (pathsL r).map (fun e => (e.1, 1 :: e.2))

/-- The bit string `compress` writes for byte `b` under table `codes`
(empty when the byte has no code, in which case `compress` fails anyway). -/
def pathBits (codes : Nat → Option (Nat × Nat)) (b : Nat) : List Nat :=
  match codes b with
  | some (code, len) => codeBits code len
  | none => []

/-- The code table the whole encoder associates to an input buffer. -/
def mainTable (B : List Nat) : Nat → Option (Nat × Nat) :=
  match buildHuffmanTree (buildFreqTable B) with
  | some root => mainCodes root
  | none => fun _ => none

/-- A bit list drives the walk of `decompress` into a NULL child before
`osize` symbols are produced: the condition guarding the
`"Invalid path in Huffman tree"` error exit. -/
def nullDriven (root : Node) : Node → List Nat → Nat → Nat → Bool
  | _, _, _, 0 => false
  | current, bits, outLen, osize + 1 =>
    if outLen < osize + 1 then
      match bits with
      | [] => false
      | b :: rest =>
        match (if b = 0 then current.left else current.right) with
        | none => true
        | some c =>
          if c.left = none ∧ c.right = none then
            nullDriven root root rest (outLen + 1) (osize + 1)
          else nullDriven root c rest outLen (osize + 1)
    else false

/-- One bit string extends another: `p` followed by some remainder `r` is
`q`.  This is the relation in the spec's code-prefix-freedom property. -/
def codePre (p q : List Nat) : Prop := ∃ r, p ++ r = q

/-- A placeholder header value (used only as the `Option.getD` default when
naming the components of a successful `encodeParts` run). -/
def dfltHeader : HuffHeader :=
  { magic := 0, version := 0, original_size := 0, compressed_size := 0,
    checksum := 0, tree_size := 0, padding_bits := 0, reserved := 0 }

/-- The container the encoder produces for the one-byte input `[97]`, with
its version field overwritten to 0 (byte 4 is the low byte of the
little-endian `version`). -/
def c97v0 : List Nat := ((encodeBytes [97]).getD []).set 4 0

/-! ## The `huffman-00` variant (`huffman-00/enc.c` / `dec.c`)

Its `buildHuffmanTree` differs: a 0-indexed min-heap filled directly and
heapified, `'$'` (36) internal markers, and special cases returning a
`'$'` leaf for an empty table and a root with a single left child for a
one-symbol table. -/

namespace H0

/-- 0-indexed heap read (`minHeap->array[i]`). -/
def aGet (l : List Node) (i : Nat) : Node := l.getD i dfltNode

/-- `minHeapify` (`huffman-00/enc.c:165`); the recursion descends the tree,
so `fuel = l.length` suffices for the exact C behaviour. -/
def minHeapify (fuel : Nat) (l : List Node) (idx : Nat) : List Node :=
  match fuel with
  | 0 => l
  | fuel + 1 =>
    let left := 2 * idx + 1
    let right := 2 * idx + 2
    let s1 := if left < l.length ∧ (aGet l left).freq < (aGet l idx).freq then left else idx
    let smallest :=
      if right < l.length ∧ (aGet l right).freq < (aGet l s1).freq then right else s1
    if smallest ≠ idx then
      minHeapify fuel ((l.set idx (aGet l smallest)).set smallest (aGet l idx)) smallest
    else l

/-- `extractMin` (`huffman-00/enc.c:182`): move the last element to the
root, shrink, heapify. -/
def extractMin (l : List Node) : Node × List Node :=
  (aGet l 0, minHeapify l.length ((l.set 0 (aGet l (l.length - 1))).dropLast) 0)

/-- `insertMinHeap` percolate-up (`huffman-00/enc.c:190`), modelled like
`percUp` with the 0-based parent `(i-1)/2`; fuel as in `percUp`. -/
def insUp (fuel : Nat) (l : List Node) (i : Nat) (node : Node) : List Node :=
  match fuel with
  | 0 => l.set i node
  | fuel + 1 =>
    if i ≠ 0 ∧ node.freq < (aGet l ((i - 1) / 2)).freq then
      insUp fuel (l.set i (aGet l ((i - 1) / 2))) ((i - 1) / 2) node
    else l.set i node

/-- `insertMinHeap` itself. -/
def insertMinHeap (l : List Node) (node : Node) : List Node :=
  insUp (l.length + 1) (l ++ [node]) l.length node

/-- `buildMinHeap` (`huffman-00/enc.c:200`): heapify from `(n-1-1)/2` down
to 0 (`n = size`). -/
def buildMinHeap (l : List Node) : List Node :=
  (List.range ((l.length - 1 - 1) / 2 + 1)).foldr (fun i acc => minHeapify acc.length acc i) l

/-- The merge loop of `huffman-00`'s `buildHuffmanTree`, structural on the
heap size (each iteration shrinks it by one). -/
def huffLoop00 (fuel : Nat) (l : List Node) : List Node :=
  match fuel with
  | 0 => l
  | fuel + 1 =>
    if l.length ≠ 1 then
      let e1 := extractMin l
      let e2 := extractMin e1.2
      huffLoop00 fuel
        (insertMinHeap e2.2 (Node.two 36 (e1.1.freq + e2.1.freq) e1.1 e2.1))
    else l

/-- `buildHuffmanTree` from `huffman-00/enc.c:206` = `dec.c:228` (`'$'` is
byte 36).  Size 0 returns `newNode('$', 0)`; size 1 returns a root whose
only child is the single symbol's leaf (`root->left = single, right = NULL`);
otherwise heapify and merge. -/
def buildHuffmanTree00 (freq : Nat → Nat) : Node :=
  let l0 := ((List.range 256).filter (fun i => freq i > 0)).map
    (fun i => Node.leaf i (freq i))
  if l0.length = 0 then Node.leaf 36 0
  else if l0.length = 1 then Node.onlyL 36 (aGet l0 0).freq (aGet l0 0)
  else
    let h := buildMinHeap l0
    aGet (huffLoop00 h.length h) 0

end H0

/-! # Theorems

## Basic facts about nodes -/

@[simp] theorem newNode_none_none (c f : Nat) : newNode c f none none = .leaf c f := rfl

@[simp] theorem newNode_some_some (c f : Nat) (l r : Node) :
    newNode c f (some l) (some r) = .two c f l r := rfl

@[simp] theorem ch_leaf (c f : Nat) : (Node.leaf c f).ch = c := rfl
@[simp] theorem ch_two (c f : Nat) (l r : Node) : (Node.two c f l r).ch = c := rfl
@[simp] theorem freq_leaf (c f : Nat) : (Node.leaf c f).freq = f := rfl
@[simp] theorem freq_two (c f : Nat) (l r : Node) : (Node.two c f l r).freq = f := rfl
@[simp] theorem left_leaf (c f : Nat) : (Node.leaf c f).left = none := rfl
@[simp] theorem left_two (c f : Nat) (l r : Node) : (Node.two c f l r).left = some l := rfl
@[simp] theorem left_onlyL (c f : Nat) (l : Node) : (Node.onlyL c f l).left = some l := rfl
@[simp] theorem left_onlyR (c f : Nat) (r : Node) : (Node.onlyR c f r).left = none := rfl
@[simp] theorem right_leaf (c f : Nat) : (Node.leaf c f).right = none := rfl
@[simp] theorem right_two (c f : Nat) (l r : Node) : (Node.two c f l r).right = some r := rfl
@[simp] theorem right_onlyL (c f : Nat) (l : Node) : (Node.onlyL c f l).right = none := rfl
@[simp] theorem right_onlyR (c f : Nat) (r : Node) : (Node.onlyR c f r).right = some r := rfl

/-- A node with no children is a `leaf` constructor. -/
theorem eq_leaf_of_no_children {t : Node} (h : t.left = none ∧ t.right = none) :
    ∃ c f, t = .leaf c f := by
  cases t with
  | leaf c f => exact ⟨c, f, rfl⟩
  | two c f l r => simp [Node.left] at h
  | onlyL c f l => simp [Node.left] at h
  | onlyR c f r => simp [Node.right] at h

/-! ## Multiset bookkeeping for the heap -/

/-- Joint leaf-symbol multiset of a list of trees. -/
def msum (l : List Node) : Multiset Nat :=
  (Multiset.map leafChs (l : Multiset Node)).sum

/-- Joint node count of a list of trees. -/
def szsum (l : List Node) : Nat :=
  (Multiset.map sizeNode (l : Multiset Node)).sum

theorem msum_nil : msum [] = 0 := rfl

theorem msum_of_coe_eq {l₁ l₂ : List Node} (h : (l₁ : Multiset Node) = l₂) :
    msum l₁ = msum l₂ := by simp [msum, h]

theorem msum_of_coe_add {l₁ l₂ : List Node} {a : Node}
    (h : (l₁ : Multiset Node) = (l₂ : Multiset Node) + {a}) :
    msum l₁ = msum l₂ + leafChs a := by
  simp [msum, h]

theorem szsum_of_coe_add {l₁ l₂ : List Node} {a : Node}
    (h : (l₁ : Multiset Node) = (l₂ : Multiset Node) + {a}) :
    szsum l₁ = szsum l₂ + sizeNode a := by
  simp [szsum, h]

theorem mem_of_coe_add_left {l₁ l₂ : List Node} {a : Node}
    (h : (l₁ : Multiset Node) = (l₂ : Multiset Node) + {a}) : a ∈ l₁ := by
  have : a ∈ (l₁ : Multiset Node) := by simp [h]
  simpa using this

theorem mem_of_coe_add_right {l₁ l₂ : List Node} {a x : Node}
    (h : (l₁ : Multiset Node) = (l₂ : Multiset Node) + {a}) (hx : x ∈ l₂) : x ∈ l₁ := by
  have : x ∈ (l₁ : Multiset Node) := by
    rw [h]; exact Multiset.mem_add.2 (Or.inl (by simpa using hx))
  simpa using this

/-- Replacing element `i` exchanges it with the new value, as a permutation. -/
theorem set_concat_perm (l : List Node) (i : Nat) (a : Node) (h : i < l.length) :
    List.Perm (l.set i a ++ [l[i]]) (l ++ [a]) := by
  have hl : l = l.take i ++ l[i] :: l.drop (i + 1) := by
    conv_lhs => rw [← List.take_append_drop i l, List.drop_eq_getElem_cons h]
  have h1 : List.Perm (l.set i a ++ [l[i]]) (l[i] :: l.set i a) :=
    List.perm_append_singleton _ _
  have h2 : List.Perm (l.set i a) (a :: (l.take i ++ l.drop (i + 1))) := by
    rw [List.set_eq_take_cons_drop a h]; exact List.perm_middle
  have h3 : List.Perm l (l[i] :: (l.take i ++ l.drop (i + 1))) := by
    conv_lhs => rw [hl]
    exact List.perm_middle
  refine h1.trans ?_
  refine (List.Perm.cons _ h2).trans ?_
  refine (List.Perm.swap _ _ _).trans ?_
  refine List.Perm.trans ?_ (List.perm_append_singleton _ _).symm
  exact List.Perm.cons _ h3.symm

/-- Replacing element `i` exchanges it in the multiset view. -/
theorem coe_set_add (l : List Node) (i : Nat) (a : Node) (h : i < l.length) :
    ((l.set i a : List Node) : Multiset Node) + {l.getD i dfltNode} =
      (l : Multiset Node) + {a} := by
  rw [List.getD_eq_getElem _ _ h]
  have := Multiset.coe_eq_coe.2 (set_concat_perm l i a h)
  simpa [← Multiset.coe_singleton] using this


@[simp] theorem hSet_length (l : List Node) (k : Nat) (x : Node) :
    (hSet l k x).length = l.length := by simp [hSet]

theorem hGet_hSet_self {l : List Node} {k : Nat} (x : Node) (h1 : 1 ≤ k)
    (h2 : k ≤ l.length) : hGet (hSet l k x) k = x := by
  have hk : k - 1 < l.length := by omega
  unfold hGet hSet
  rw [List.getD_eq_getElem _ _ (by simpa using hk)]
  exact List.getElem_set_self _

theorem hGet_hSet_ne {l : List Node} {k j : Nat} (x : Node) (h1 : 1 ≤ k) (h2 : 1 ≤ j)
    (hne : k ≠ j) : hGet (hSet l k x) j = hGet l j := by
  unfold hGet hSet
  rcases Nat.lt_or_ge (j - 1) l.length with hj | hj
  · rw [List.getD_eq_getElem _ _ (by simpa using hj), List.getD_eq_getElem _ _ hj]
    exact List.getElem_set_ne (by omega) _
  · rw [List.getD_eq_default _ _ (by simpa using hj), List.getD_eq_default _ _ hj]

theorem hSet_coe_add {l : List Node} {k : Nat} (x : Node) (h1 : 1 ≤ k) (h2 : k ≤ l.length) :
    ((hSet l k x : List Node) : Multiset Node) + {hGet l k} = (l : Multiset Node) + {x} :=
  coe_set_add l (k - 1) x (by omega)

@[simp] theorem percUp_length (fuel : Nat) (l : List Node) (k : Nat) (item : Node) :
    (percUp fuel l k item).length = l.length := by
  induction fuel generalizing l k with
  | zero => simp [percUp]
  | succ fuel ih =>
    rw [percUp]
    split
    · rw [ih, hSet_length]
    · exact hSet_length l k item

theorem percUp_coe (fuel : Nat) (l : List Node) (k : Nat) (item : Node)
    (h1 : 1 ≤ k) (h2 : k ≤ l.length) :
    ((percUp fuel l k item : List Node) : Multiset Node) + {hGet l k} =
      (l : Multiset Node) + {item} := by
  induction fuel generalizing l k with
  | zero => simpa [percUp] using hSet_coe_add item h1 h2
  | succ fuel ih =>
    rw [percUp]
    split
    · rename_i hcond
      have hk2 : 2 ≤ k := hcond.1
      have hkk : k / 2 ≠ k := by omega
      have ih' := ih (hSet l k (hGet l (k / 2))) (k / 2) (by omega) (by simp; omega)
      rw [hGet_hSet_ne _ h1 (by omega) (Ne.symm hkk)] at ih'
      have hg := hSet_coe_add (l := l) (k := k) (hGet l (k / 2)) h1 h2
      have hmain : ((percUp fuel (hSet l k (hGet l (k / 2))) (k / 2) item : List Node) :
          Multiset Node) + {hGet l k} + {hGet l (k / 2)} =
          ((l : Multiset Node) + {item}) + {hGet l (k / 2)} := by
        rw [add_right_comm, ih', add_comm ((hSet l k (hGet l (k / 2)) : List Node) :
          Multiset Node) {item}, add_assoc, hg]
        abel
      exact add_right_cancel hmain
    · simpa using hSet_coe_add item h1 h2

@[simp] theorem percDown_length (fuel : Nat) (l : List Node) (last : Node) (k : Nat) :
    (percDown fuel l last k).length = l.length := by
  induction fuel generalizing l k with
  | zero => simp [percDown]
  | succ fuel ih =>
    rw [percDown]
    split
    · split
      · exact hSet_length l k last
      · rw [ih, hSet_length]
    · exact hSet_length l k last

theorem smallerChild_ge (l : List Node) (k : Nat) : 2 * k ≤ smallerChild l k := by
  unfold smallerChild; split <;> omega

theorem smallerChild_le (l : List Node) (k : Nat) (h : 2 * k ≤ l.length) :
    smallerChild l k ≤ l.length := by
  unfold smallerChild
  split
  · rename_i hc; omega
  · exact h

theorem percDown_coe (fuel : Nat) (l : List Node) (last : Node) (k : Nat)
    (h1 : 1 ≤ k) (h2 : k ≤ l.length) :
    ((percDown fuel l last k : List Node) : Multiset Node) + {hGet l k} =
      (l : Multiset Node) + {last} := by
  induction fuel generalizing l k with
  | zero => simpa [percDown] using hSet_coe_add last h1 h2
  | succ fuel ih =>
    rw [percDown]
    split
    · rename_i hcond
      split
      · simpa using hSet_coe_add last h1 h2
      · have hjge := smallerChild_ge l k
        have hjle := smallerChild_le l k hcond
        have hjk : smallerChild l k ≠ k := by omega
        have ih' := ih (hSet l k (hGet l (smallerChild l k))) (smallerChild l k)
          (by omega) (by simpa using hjle)
        rw [hGet_hSet_ne _ h1 (by omega) (Ne.symm hjk)] at ih'
        have hg := hSet_coe_add (l := l) (k := k) (hGet l (smallerChild l k)) h1 h2
        have hmain : ((percDown fuel (hSet l k (hGet l (smallerChild l k))) last
            (smallerChild l k) : List Node) : Multiset Node) + {hGet l k} +
            {hGet l (smallerChild l k)} =
            ((l : Multiset Node) + {last}) + {hGet l (smallerChild l k)} := by
          rw [add_right_comm, ih', add_comm ((hSet l k (hGet l (smallerChild l k)) :
            List Node) : Multiset Node) {last}, add_assoc, hg]
          abel
        exact add_right_cancel hmain
    · simpa using hSet_coe_add last h1 h2

theorem PQinsert_length {l : List Node} (item : Node) (h : l.length < 256) :
    (PQinsert l item).length = l.length + 1 := by
  unfold PQinsert
  rw [if_neg (by omega)]
  simp

theorem PQinsert_coe {l : List Node} (item : Node) (h : l.length < 256) :
    ((PQinsert l item : List Node) : Multiset Node) = (l : Multiset Node) + {item} := by
  unfold PQinsert
  rw [if_neg (by omega)]
  have hb := percUp_coe (l.length + 1) (l ++ [item]) (l.length + 1) item (by omega)
    (by simp)
  have hlast : hGet (l ++ [item]) (l.length + 1) = item := by
    unfold hGet
    rw [Nat.add_sub_cancel, List.getD_eq_getElem _ _ (by simp)]
    simp
  rw [hlast] at hb
  have : ((l ++ [item] : List Node) : Multiset Node) = (l : Multiset Node) + {item} := by
    simpa [← Multiset.coe_singleton] using Multiset.coe_eq_coe.2 (List.Perm.refl (l ++ [item]))
  rw [this] at hb
  exact add_right_cancel hb

theorem PQdelmin_spec {l : List Node} (h : l ≠ []) :
    ∃ a rest, PQdelmin l = some (a, rest) ∧
      (l : Multiset Node) = (rest : Multiset Node) + {a} ∧
      rest.length + 1 = l.length := by
  match l with
  | [] => exact absurd rfl h
  | x :: xs =>
    match xs with
    | [] => exact ⟨x, [], rfl, by simp [← Multiset.coe_singleton], rfl⟩
    | y :: ys =>
      refine ⟨x, _, rfl, ?_, ?_⟩
      · have hlive : ((x :: y :: ys).dropLast) = x :: (y :: ys).dropLast := rfl
        have hlen : ((x :: y :: ys).dropLast).length = ys.length + 1 := by simp
        have hco := percDown_coe (((x :: y :: ys).dropLast).length + 1)
          ((x :: y :: ys).dropLast) ((y :: ys).getLastD x) 1 (by omega) (by omega)
        have h1 : hGet ((x :: y :: ys).dropLast) 1 = x := by
          rw [hlive]; rfl
        rw [h1] at hco
        have hsplit : ((x :: y :: ys : List Node) : Multiset Node) =
            (((x :: y :: ys).dropLast : List Node) : Multiset Node) +
              {(y :: ys).getLastD x} := by
          have hne : (x :: y :: ys : List Node) ≠ [] := by simp
          have hgl : (x :: y :: ys).getLast hne = (y :: ys).getLastD x := by
            rw [List.getLast_cons (by simp)]
            rw [List.getLastD_eq_getLast?]
            rw [List.getLast?_eq_getLast _ (by simp)]
            simp
          conv_lhs => rw [← List.dropLast_append_getLast hne]
          rw [hgl]
          simpa [← Multiset.coe_singleton] using
            Multiset.coe_eq_coe.2 (List.Perm.refl _)
        rw [hsplit, hco]
      · simp

@[simp] theorem leafChs_leaf (c f : Nat) : leafChs (.leaf c f) = {c} := rfl
@[simp] theorem leafChs_two (c f : Nat) (l r : Node) :
    leafChs (.two c f l r) = leafChs l + leafChs r := rfl
@[simp] theorem sizeNode_leaf (c f : Nat) : sizeNode (.leaf c f) = 1 := rfl
@[simp] theorem sizeNode_two (c f : Nat) (l r : Node) :
    sizeNode (.two c f l r) = 1 + sizeNode l + sizeNode r := rfl
@[simp] theorem strictB_leaf (c f : Nat) : strictB (.leaf c f) = true := rfl
@[simp] theorem strictB_two (c f : Nat) (l r : Node) :
    strictB (.two c f l r) = (strictB l && strictB r) := rfl

theorem msum_singleton (x : Node) : msum [x] = leafChs x := by simp [msum]

theorem szsum_singleton (x : Node) : szsum [x] = sizeNode x := by simp [szsum]

/-- Invariant of the merge loop: it succeeds on a heap whose length equals
the `symbols` counter, and the result collects exactly the leaves of the
heap's trees, is strict if they are, and has the node count of a sequence of
`symbols - 1` binary merges. -/
theorem huffLoop_spec : ∀ (s : Nat) (pq : List Node), pq.length = s + 1 →
    s + 1 ≤ 256 → (∀ x ∈ pq, strictB x = true) →
    ∃ t, huffLoop pq (s + 1) = some t ∧ leafChs t = msum pq ∧ strictB t = true ∧
      sizeNode t = szsum pq + s := by
  intro s
  induction s with
  | zero =>
    intro pq hlen _ hstrict
    obtain ⟨x, hx⟩ := List.length_eq_one.1 hlen
    subst hx
    exact ⟨x, rfl, (msum_singleton x).symm, hstrict x (by simp),
      by simp [szsum_singleton]⟩
  | succ s ih =>
    intro pq hlen hle hstrict
    have hne : pq ≠ [] := by intro h; rw [h] at hlen; simp at hlen
    obtain ⟨a, pq1, hd1, hc1, hl1⟩ := PQdelmin_spec hne
    have hne1 : pq1 ≠ [] := by
      intro h; rw [h] at hl1; simp at hl1; omega
    obtain ⟨b, pq2, hd2, hc2, hl2⟩ := PQdelmin_spec hne1
    have hlen2 : pq2.length = s := by omega
    have hmem1 : ∀ x ∈ pq1, x ∈ pq := fun x hx => mem_of_coe_add_right hc1 hx
    have hmem2 : ∀ x ∈ pq2, x ∈ pq := fun x hx => hmem1 x (mem_of_coe_add_right hc2 hx)
    have ha : a ∈ pq := mem_of_coe_add_left hc1
    have hb : b ∈ pq := hmem1 b (mem_of_coe_add_left hc2)
    set merged := newNode 0 (a.freq + b.freq) (some a) (some b) with hm
    have hmstrict : strictB merged = true := by
      rw [hm, newNode_some_some, strictB_two, hstrict a ha, hstrict b hb]
      rfl
    set pq3 := PQinsert pq2 merged with hp3
    have hc3 : ((pq3 : List Node) : Multiset Node) = (pq2 : Multiset Node) + {merged} :=
      PQinsert_coe merged (by omega)
    have hlen3 : pq3.length = s + 1 := by
      rw [hp3, PQinsert_length merged (by omega), hlen2]
    have hstrict3 : ∀ x ∈ pq3, strictB x = true := by
      intro x hx
      have : x ∈ ((pq2 : Multiset Node) + {merged}) := by
        rw [← hc3]; simpa using hx
      rcases Multiset.mem_add.1 this with h | h
      · exact hstrict x (hmem2 x (by simpa using h))
      · rw [Multiset.mem_singleton.1 h]; exact hmstrict
    obtain ⟨t, hres, hlc, hst, hsz⟩ := ih pq3 hlen3 (by omega) hstrict3
    refine ⟨t, ?_, ?_, hst, ?_⟩
    · show huffLoop pq (s + 1 + 1) = some t
      rw [show s + 1 + 1 = s + 2 from rfl, huffLoop, hd1]
      dsimp only
      rw [hd2]
      exact hres
    · rw [hlc, msum_of_coe_add hc3, msum_of_coe_add hc1, msum_of_coe_add hc2, hm]
      simp
      abel
    · rw [hsz, szsum_of_coe_add hc3, szsum_of_coe_add hc1, szsum_of_coe_add hc2, hm]
      simp
      omega

/-- Invariant of the initial insertion loop over any remaining symbol list. -/
theorem initFold_spec (freq : Nat → Nat) : ∀ (L : List Nat) (h0 : List Node) (c0 : Nat),
    h0.length = c0 → c0 + (L.filter (fun i => freq i > 0)).length ≤ 256 →
    ((L.foldl (fun acc i =>
        if freq i > 0 then (PQinsert acc.1 (newNode i (freq i) none none), acc.2 + 1)
        else acc) (h0, c0)).1.length =
      (L.foldl (fun acc i =>
        if freq i > 0 then (PQinsert acc.1 (newNode i (freq i) none none), acc.2 + 1)
        else acc) (h0, c0)).2) ∧
    ((L.foldl (fun acc i =>
        if freq i > 0 then (PQinsert acc.1 (newNode i (freq i) none none), acc.2 + 1)
        else acc) (h0, c0)).2 = c0 + (L.filter (fun i => freq i > 0)).length) ∧
    (((L.foldl (fun acc i =>
        if freq i > 0 then (PQinsert acc.1 (newNode i (freq i) none none), acc.2 + 1)
        else acc) (h0, c0)).1 : List Node) : Multiset Node) =
      (h0 : Multiset Node) +
        (((L.filter (fun i => freq i > 0)).map (fun i => Node.leaf i (freq i)) :
          List Node) : Multiset Node) := by
  intro L
  induction L with
  | nil => intro h0 c0 hlen _; simp [hlen]
  | cons i L ih =>
    intro h0 c0 hlen hle
    by_cases hi : freq i > 0
    · have hfl : (i :: L).filter (fun i => freq i > 0) =
          i :: L.filter (fun i => freq i > 0) := by
        simp [List.filter_cons, hi]
      rw [hfl] at hle
      simp only [List.foldl_cons, if_pos hi]
      have hlt : h0.length < 256 := by simp at hle; omega
      have hlen' : (PQinsert h0 (newNode i (freq i) none none)).length = c0 + 1 := by
        rw [PQinsert_length _ hlt, hlen]
      have ih' := ih (PQinsert h0 (newNode i (freq i) none none)) (c0 + 1) hlen'
        (by simp at hle ⊢; omega)
      refine ⟨ih'.1, ?_, ?_⟩
      · rw [ih'.2.1, hfl]; simp; omega
      · rw [ih'.2.2, PQinsert_coe _ hlt, hfl]
        simp only [List.map_cons, ← Multiset.cons_coe, newNode_none_none]
        rw [← Multiset.singleton_add]
        abel
    · have hfl : (i :: L).filter (fun i => freq i > 0) =
          L.filter (fun i => freq i > 0) := by
        simp [List.filter_cons, hi]
      rw [hfl] at hle
      simp only [List.foldl_cons, if_neg hi]
      have ih' := ih h0 c0 hlen hle
      exact ⟨ih'.1, by rw [ih'.2.1, hfl], by rw [ih'.2.2, hfl]⟩

/-- The heap after the insertion loop holds exactly one leaf per symbol of
nonzero frequency, and the `symbols` counter equals `countEntries`. -/
theorem initHeap_spec (freq : Nat → Nat) :
    (initHeap freq).1.length = (initHeap freq).2 ∧
    (initHeap freq).2 = countEntries freq ∧
    (((initHeap freq).1 : List Node) : Multiset Node) =
      ((((List.range 256).filter (fun i => freq i > 0)).map
        (fun i => Node.leaf i (freq i)) : List Node) : Multiset Node) := by
  have h := initFold_spec freq (List.range 256) [] 0 rfl
    (by simpa using List.length_filter_le _ (List.range 256))
  exact ⟨h.1, by simpa [initHeap, countEntries] using h.2.1,
    by simpa [initHeap] using h.2.2⟩

theorem msum_leaves (L : List Nat) (freq : Nat → Nat) :
    msum (L.map (fun i => Node.leaf i (freq i))) = (L : Multiset Nat) := by
  induction L with
  | nil => rfl
  | cons i L ih =>
    simp only [List.map_cons, msum, ← Multiset.cons_coe, Multiset.map_cons,
      Multiset.sum_cons] at ih ⊢
    rw [ih, leafChs_leaf, Multiset.singleton_add]

theorem szsum_leaves (L : List Nat) (freq : Nat → Nat) :
    szsum (L.map (fun i => Node.leaf i (freq i))) = L.length := by
  induction L with
  | nil => rfl
  | cons i L ih =>
    simp only [List.map_cons, szsum, ← Multiset.cons_coe, Multiset.map_cons,
      Multiset.sum_cons] at ih ⊢
    rw [ih, sizeNode_leaf, List.length_cons]
    omega

/-- Master specification of `buildHuffmanTree`: with at least one nonzero
frequency it returns a strict tree whose leaf symbols are exactly the
nonzero-frequency symbols (one leaf each) and whose node count is
`2 * countEntries - 1`. -/
theorem buildHuffmanTree_spec (freq : Nat → Nat) (h : 1 ≤ countEntries freq) :
    ∃ t, buildHuffmanTree freq = some t ∧
      leafChs t =
        (((List.range 256).filter (fun i => freq i > 0) : List Nat) : Multiset Nat) ∧
      strictB t = true ∧ sizeNode t = 2 * countEntries freq - 1 := by
  obtain ⟨hlen, hcnt, hcoe⟩ := initHeap_spec freq
  have hstrict : ∀ x ∈ (initHeap freq).1, strictB x = true := by
    intro x hx
    have : x ∈ ((((List.range 256).filter (fun i => freq i > 0)).map
        (fun i => Node.leaf i (freq i)) : List Node) : Multiset Node) := by
      rw [← hcoe]; simpa using hx
    simp only [Multiset.mem_coe, List.mem_map] at this
    obtain ⟨i, _, hx⟩ := this
    rw [← hx]; rfl
  have hmsum : msum (initHeap freq).1 =
      (((List.range 256).filter (fun i => freq i > 0) : List Nat) : Multiset Nat) := by
    rw [msum_of_coe_eq hcoe, msum_leaves]
  have hszsum : szsum (initHeap freq).1 = countEntries freq := by
    have : szsum (initHeap freq).1 =
        szsum ((((List.range 256).filter (fun i => freq i > 0)).map
          (fun i => Node.leaf i (freq i)))) := by simp [szsum, hcoe]
    rw [this, szsum_leaves, countEntries]
  rcases Nat.lt_or_ge (countEntries freq) 2 with hsmall | hbig
  · have h1 : countEntries freq = 1 := by omega
    obtain ⟨x, hx⟩ := List.length_eq_one.1 (by rw [hlen, hcnt, h1])
    have hone : buildHuffmanTree freq = some x := by
      unfold buildHuffmanTree
      rw [hcnt, h1, if_neg (by omega), if_pos rfl, hx]
      rfl
    refine ⟨x, hone, ?_, hstrict x (by rw [hx]; simp), ?_⟩
    · rw [← hmsum, hx, msum_singleton]
    · have hx1 : sizeNode x = 1 := by rw [← szsum_singleton x, ← hx, hszsum, h1]
      rw [hx1, h1]
  · have hform : countEntries freq = (countEntries freq - 1) + 1 := by omega
    have hle26 : countEntries freq ≤ 256 := by
      unfold countEntries
      simpa using List.length_filter_le _ (List.range 256)
    obtain ⟨t, hres, hlc, hst, hsz⟩ := huffLoop_spec (countEntries freq - 1)
      (initHeap freq).1 (by omega) (by omega) hstrict
    refine ⟨t, ?_, by rw [hlc, hmsum], hst, by rw [hsz, hszsum]; omega⟩
    unfold buildHuffmanTree
    rw [hcnt, if_neg (by omega), if_neg (by omega), hform]
    exact hres

/-! ## Codes and paths -/

theorem shiftr_and_one (x k : Nat) : (x >>> k) &&& 1 = (x.testBit k).toNat := by
  simp only [Nat.testBit, Nat.and_one_is_mod]
  rcases Nat.mod_two_eq_zero_or_one (x >>> k) with h | h <;> simp [h, Nat.decEq]

@[simp] theorem codeBits_zero (c : Nat) : codeBits c 0 = [] := by simp [codeBits]

theorem codeBits_step (c b d : Nat) (hb : b ≤ 1) :
    codeBits (2 * c + b) (d + 1) = codeBits c d ++ [b] := by
  unfold codeBits
  rw [List.range_succ, List.map_append]
  congr 1
  · refine List.map_congr_left ?_
    intro i hi
    have hid : i < d := List.mem_range.1 hi
    have h1 : d + 1 - 1 - i = (d - 1 - i) + 1 := by omega
    rw [h1, shiftr_and_one, shiftr_and_one, Nat.testBit_succ]
    have h2 : (2 * c + b) / 2 = c := by omega
    rw [h2]
  · have h1 : d + 1 - 1 - d = 0 := by omega
    simp only [List.map_cons, List.map_nil, h1, Nat.shiftRight_zero,
      Nat.and_one_is_mod]
    have : (2 * c + b) % 2 = b := by omega
    rw [this]

theorem codeBits_left (c d : Nat) : codeBits (2 * c) (d + 1) = codeBits c d ++ [0] := by
  have := codeBits_step c 0 d (by omega)
  simpa using this

theorem codeBits_right (c d : Nat) :
    codeBits (2 * c + 1) (d + 1) = codeBits c d ++ [1] :=
  codeBits_step c 1 d (by omega)

/-- Bridge between `generateCodes` (code accumulator and depth) and `pathsL`
(bit-path view): the recorded entries denote the root-to-leaf paths, each
prefixed with the bits accumulated so far. -/
theorem generateCodes_map_codeBits : ∀ (t : Node) (code depth : Nat),
    (generateCodes t code depth).map (fun e => (e.1, codeBits e.2.1 e.2.2)) =
      (pathsL t).map (fun e => (e.1, codeBits code depth ++ e.2)) := by
  intro t
  induction t with
  | leaf c f => intro code depth; simp [generateCodes, pathsL]
  | two c f l r ihl ihr =>
    intro code depth
    simp only [generateCodes, pathsL, List.map_append, List.map_map, ihl, ihr]
    congr 1
    · refine List.map_congr_left ?_
      intro e _
      simp [Function.comp, codeBits_left]
    · refine List.map_congr_left ?_
      intro e _
      simp [Function.comp, codeBits_right]
  | onlyL c f l ihl =>
    intro code depth
    simp only [generateCodes, pathsL, List.map_map, ihl]
    refine List.map_congr_left ?_
    intro e _
    simp [Function.comp, codeBits_left]
  | onlyR c f r ihr =>
    intro code depth
    simp only [generateCodes, pathsL, List.map_map, ihr]
    refine List.map_congr_left ?_
    intro e _
    simp [Function.comp, codeBits_right]

/-- Specialisation at the root call `generateCodes(root, codes, 0, 0)`. -/
theorem generateCodes_root_map (t : Node) :
    (generateCodes t 0 0).map (fun e => (e.1, codeBits e.2.1 e.2.2)) = pathsL t := by
  have := generateCodes_map_codeBits t 0 0
  simpa using this

@[simp] theorem subtreeAt_nil (t : Node) : subtreeAt t [] = some t := rfl

theorem subtreeAt_cons (t : Node) (b : Nat) (rest : List Nat) :
    subtreeAt t (b :: rest) =
      match (if b = 0 then t.left else t.right) with
      | none => none
      | some c => subtreeAt c rest := rfl

@[simp] theorem subtreeAt_two_zero (c f : Nat) (l r : Node) (rest : List Nat) :
    subtreeAt (.two c f l r) (0 :: rest) = subtreeAt l rest := rfl

@[simp] theorem subtreeAt_two_one (c f : Nat) (l r : Node) (rest : List Nat) :
    subtreeAt (.two c f l r) (1 :: rest) = subtreeAt r rest := rfl

@[simp] theorem subtreeAt_onlyL_zero (c f : Nat) (l : Node) (rest : List Nat) :
    subtreeAt (.onlyL c f l) (0 :: rest) = subtreeAt l rest := rfl

@[simp] theorem subtreeAt_onlyR_one (c f : Nat) (r : Node) (rest : List Nat) :
    subtreeAt (.onlyR c f r) (1 :: rest) = subtreeAt r rest := rfl

/-- Every recorded path leads to a leaf carrying the recorded symbol. -/
theorem pathsL_subtreeAt : ∀ (t : Node) (s : Nat) (p : List Nat),
    (s, p) ∈ pathsL t → ∃ f, subtreeAt t p = some (.leaf s f) := by
  intro t
  induction t with
  | leaf c f =>
    intro s p hp
    simp only [pathsL, List.mem_singleton, Prod.mk.injEq] at hp
    exact ⟨f, by rw [hp.2, hp.1.symm]; rfl⟩
  | two c f l r ihl ihr =>
    intro s p hp
    simp only [pathsL, List.mem_append, List.mem_map] at hp
    rcases hp with ⟨e, he, heq⟩ | ⟨e, he, heq⟩
    · obtain ⟨hs, hp⟩ := Prod.mk.injEq .. ▸ heq
      obtain ⟨g, hg⟩ := ihl e.1 e.2 (by simpa using he)
      exact ⟨g, by rw [← hp, ← hs]; simpa using hg⟩
    · obtain ⟨hs, hp⟩ := Prod.mk.injEq .. ▸ heq
      obtain ⟨g, hg⟩ := ihr e.1 e.2 (by simpa using he)
      exact ⟨g, by rw [← hp, ← hs]; simpa using hg⟩
  | onlyL c f l ihl =>
    intro s p hp
    simp only [pathsL, List.mem_map] at hp
    obtain ⟨e, he, heq⟩ := hp
    obtain ⟨hs, hp⟩ := Prod.mk.injEq .. ▸ heq
    obtain ⟨g, hg⟩ := ihl e.1 e.2 (by simpa using he)
    exact ⟨g, by rw [← hp, ← hs]; simpa using hg⟩
  | onlyR c f r ihr =>
    intro s p hp
    simp only [pathsL, List.mem_map] at hp
    obtain ⟨e, he, heq⟩ := hp
    obtain ⟨hs, hp⟩ := Prod.mk.injEq .. ▸ heq
    obtain ⟨g, hg⟩ := ihr e.1 e.2 (by simpa using he)
    exact ⟨g, by rw [← hp, ← hs]; simpa using hg⟩

/-- Every leaf symbol has a recorded path. -/
theorem leafChs_mem_pathsL : ∀ (t : Node) (s : Nat), s ∈ leafChs t →
    ∃ p, (s, p) ∈ pathsL t := by
  intro t
  induction t with
  | leaf c f =>
    intro s hs
    simp only [leafChs_leaf, Multiset.mem_singleton] at hs
    exact ⟨[], by simp [pathsL, hs]⟩
  | two c f l r ihl ihr =>
    intro s hs
    rcases Multiset.mem_add.1 (by simpa using hs) with h | h
    · obtain ⟨p, hp⟩ := ihl s h
      exact ⟨0 :: p, by simp only [pathsL, List.mem_append, List.mem_map]
                        exact Or.inl ⟨(s, p), hp, rfl⟩⟩
    · obtain ⟨p, hp⟩ := ihr s h
      exact ⟨1 :: p, by simp only [pathsL, List.mem_append, List.mem_map]
                        exact Or.inr ⟨(s, p), hp, rfl⟩⟩
  | onlyL c f l ihl =>
    intro s hs
    obtain ⟨p, hp⟩ := ihl s (by simpa [leafChs] using hs)
    exact ⟨0 :: p, by simp only [pathsL, List.mem_map]; exact ⟨(s, p), hp, rfl⟩⟩
  | onlyR c f r ihr =>
    intro s hs
    obtain ⟨p, hp⟩ := ihr s (by simpa [leafChs] using hs)
    exact ⟨1 :: p, by simp only [pathsL, List.mem_map]; exact ⟨(s, p), hp, rfl⟩⟩

/-- When the root has a child, recorded paths are nonempty. -/
theorem pathsL_path_ne_nil {t : Node} {s : Nat} {p : List Nat}
    (hp : (s, p) ∈ pathsL t) (ht : ¬(t.left = none ∧ t.right = none)) : p ≠ [] := by
  cases t with
  | leaf c f => simp at ht
  | two c f l r =>
    simp only [pathsL, List.mem_append, List.mem_map] at hp
    rcases hp with ⟨e, _, heq⟩ | ⟨e, _, heq⟩ <;>
      · intro hnil
        rw [hnil] at heq
        exact absurd (congrArg Prod.snd heq) (by simp)
  | onlyL c f l =>
    simp only [pathsL, List.mem_map] at hp
    obtain ⟨e, _, heq⟩ := hp
    intro hnil
    rw [hnil] at heq
    exact absurd (congrArg Prod.snd heq) (by simp)
  | onlyR c f r =>
    simp only [pathsL, List.mem_map] at hp
    obtain ⟨e, _, heq⟩ := hp
    intro hnil
    rw [hnil] at heq
    exact absurd (congrArg Prod.snd heq) (by simp)

/-- Walking an appended path composes. -/
theorem subtreeAt_append : ∀ (p q : List Nat) (t : Node),
    subtreeAt t (p ++ q) =
      match subtreeAt t p with
      | none => none
      | some m => subtreeAt m q := by
  intro p
  induction p with
  | nil => intro q t; simp
  | cons b p ih =>
    intro q t
    rw [List.cons_append, subtreeAt_cons, subtreeAt_cons]
    cases hb : (if b = 0 then t.left else t.right) with
    | none => rfl
    | some c => exact ih q c

theorem getLast?_mem' {α : Type} {l : List α} {a : α} (h : l.getLast? = some a) :
    a ∈ l := by
  obtain ⟨hne, heq⟩ := List.mem_getLast?_eq_getLast h
  rw [heq]
  exact List.getLast_mem hne

/-- A `codeTable` entry denotes a recorded root-to-leaf path. -/
theorem codeTable_mem {t : Node} {s c l : Nat} (h : codeTable t s = some (c, l)) :
    (s, codeBits c l) ∈ pathsL t := by
  unfold codeTable at h
  obtain ⟨e, hlast, he2⟩ := Option.map_eq_some'.1 h
  have hmem := getLast?_mem' hlast
  have he1 : e.1 = s := by
    have := List.of_mem_filter hmem
    simpa using this
  have hgen : e ∈ generateCodes t 0 0 := List.mem_of_mem_filter hmem
  rw [← generateCodes_root_map t]
  refine List.mem_map.2 ⟨e, hgen, ?_⟩
  rw [he1, he2]

/-- A symbol with a recorded path has a `codeTable` entry. -/
theorem codeTable_isSome_of_path {t : Node} {s : Nat} {p : List Nat}
    (hp : (s, p) ∈ pathsL t) : ∃ c l, codeTable t s = some (c, l) := by
  rw [← generateCodes_root_map t] at hp
  obtain ⟨e, hgen, he⟩ := List.mem_map.1 hp
  have he1 : e.1 = s := congrArg Prod.fst he
  have hfil : e ∈ (generateCodes t 0 0).filter (fun e => e.1 = s) :=
    List.mem_filter.2 ⟨hgen, by simp [he1]⟩
  have hne : (generateCodes t 0 0).filter (fun e => e.1 = s) ≠ [] := by
    intro hnil
    rw [hnil] at hfil
    exact absurd hfil (List.not_mem_nil e)
  cases hl : ((generateCodes t 0 0).filter (fun e => e.1 = s)).getLast? with
  | none => exact absurd (List.getLast?_eq_none_iff.1 hl) hne
  | some e' => exact ⟨e'.2.1, e'.2.2, by unfold codeTable; rw [hl]; rfl⟩

/-- Paths of distinct symbols are never prefixes of one another. -/
theorem pathsL_no_pre {t : Node} {s1 s2 : Nat} {p1 p2 : List Nat}
    (h1 : (s1, p1) ∈ pathsL t) (h2 : (s2, p2) ∈ pathsL t) (hs : s1 ≠ s2) :
    ¬ ∃ r, p1 ++ r = p2 := by
  rintro ⟨r, hr⟩
  obtain ⟨f1, hf1⟩ := pathsL_subtreeAt t s1 p1 h1
  obtain ⟨f2, hf2⟩ := pathsL_subtreeAt t s2 p2 h2
  rw [← hr, subtreeAt_append, hf1] at hf2
  dsimp only at hf2
  cases r with
  | nil =>
    simp only [subtreeAt_nil, Option.some.injEq, Node.leaf.injEq] at hf2
    exact hs hf2.1
  | cons b r' =>
    rw [subtreeAt_cons] at hf2
    simp at hf2

/-! ## Bit-level view of the encoder's `BitBuffer` -/

theorem two_mul_lor (x b : Nat) (hb : b ≤ 1) : 2 * x ||| b = 2 * x + b := by
  interval_cases b
  · simp
  · apply Nat.eq_of_testBit_eq
    intro i
    cases i with
    | zero =>
      rw [Nat.testBit_lor]
      simp [Nat.testBit_zero]
      omega
    | succ n =>
      rw [Nat.testBit_lor, Nat.testBit_succ, Nat.testBit_succ, Nat.testBit_succ]
      have h1 : 2 * x / 2 = x := by omega
      have h2 : (1 : Nat) / 2 = 0 := by omega
      have h3 : (2 * x + 1) / 2 = x := by omega
      rw [h1, h2, h3]
      simp

@[simp] theorem bytesToBits_nil : bytesToBits [] = [] := rfl

theorem bytesToBits_cons (v : Nat) (rest : List Nat) :
    bytesToBits (v :: rest) = codeBits v 8 ++ bytesToBits rest := by
  unfold bytesToBits codeBits
  simp only [List.map_cons, List.flatten_cons]

theorem bytesToBits_append (a b : List Nat) :
    bytesToBits (a ++ b) = bytesToBits a ++ bytesToBits b := by
  unfold bytesToBits
  simp

@[simp] theorem codeBits_length (c len : Nat) : (codeBits c len).length = len := by
  simp [codeBits]

theorem bytesToBits_length (bs : List Nat) : (bytesToBits bs).length = 8 * bs.length := by
  induction bs with
  | nil => rfl
  | cons v rest ih =>
    rw [bytesToBits_cons, List.length_append, codeBits_length, ih, List.length_cons]
    ring

/-- The accumulated bit string, written via `codeBits`. -/
theorem bufBits_eq (st : BitBuf) :
    bufBits st = bytesToBits st.data ++ codeBits st.bit_buffer st.bits_used := rfl

theorem bufBits_length (st : BitBuf) (h : BufWf st) :
    (bufBits st).length = 8 * st.data.length + st.bits_used := by
  rw [bufBits_eq, List.length_append, bytesToBits_length, codeBits_length]

/-- One `bitBufferPush` appends exactly one bit to the view. -/
theorem bitBufferPush_spec (st : BitBuf) (b : Nat) (hw : BufWf st) (hb : b ≤ 1) :
    bufBits (bitBufferPush st b) = bufBits st ++ [b] ∧ BufWf (bitBufferPush st b) := by
  obtain ⟨hu, hbb⟩ := hw
  have hlt : 2 * st.bit_buffer + b < 2 ^ (st.bits_used + 1) := by
    have : 2 ^ (st.bits_used + 1) = 2 * 2 ^ st.bits_used := by ring
    omega
  have h256 : 2 * st.bit_buffer + b < 256 := by
    have : 2 ^ (st.bits_used + 1) ≤ 2 ^ 8 := Nat.pow_le_pow_right (by omega) (by omega)
    simp at this
    omega
  have hor : (2 * st.bit_buffer ||| b) % 256 = 2 * st.bit_buffer + b := by
    rw [two_mul_lor _ _ hb, Nat.mod_eq_of_lt h256]
  have hpush : bitBufferPush st b =
      if st.bits_used + 1 = 8 then
        BitBuf.mk (st.data ++ [(2 * st.bit_buffer ||| b) % 256]) 0 0
      else BitBuf.mk st.data ((2 * st.bit_buffer ||| b) % 256) (st.bits_used + 1) := by
    unfold bitBufferPush
    split <;> rfl
  rw [hpush, hor]
  by_cases h8 : st.bits_used + 1 = 8
  · rw [if_pos h8]
    constructor
    · rw [bufBits_eq, bufBits_eq]
      dsimp only
      simp only [codeBits_zero, List.append_nil]
      rw [bytesToBits_append, bytesToBits_cons]
      simp only [bytesToBits_nil, List.append_nil]
      have h8' : (8 : Nat) = st.bits_used + 1 := by omega
      rw [h8', codeBits_step st.bit_buffer b st.bits_used hb, List.append_assoc]
    · refine ⟨by simp, by simp⟩
  · rw [if_neg h8]
    constructor
    · rw [bufBits_eq, bufBits_eq]
      dsimp only
      rw [codeBits_step st.bit_buffer b st.bits_used hb, ← List.append_assoc]
    · refine ⟨?_, ?_⟩
      · show st.bits_used + 1 < 8
        omega
      · show (2 * st.bit_buffer + b) < 2 ^ (st.bits_used + 1)
        exact hlt

/-- Folding pushes of a bit list appends it to the view. -/
theorem pushList_spec : ∀ (bits : List Nat) (st : BitBuf), BufWf st →
    (∀ b ∈ bits, b ≤ 1) →
    bufBits (bits.foldl bitBufferPush st) = bufBits st ++ bits ∧
      BufWf (bits.foldl bitBufferPush st) := by
  intro bits
  induction bits with
  | nil => intro st hw _; exact ⟨by simp, hw⟩
  | cons b rest ih =>
    intro st hw hb
    obtain ⟨h1, h2⟩ := bitBufferPush_spec st b hw (hb b (by simp))
    obtain ⟨h3, h4⟩ := ih (bitBufferPush st b) h2 (fun x hx => hb x (by simp [hx]))
    rw [List.foldl_cons]
    exact ⟨by rw [h3, h1, List.append_assoc]; rfl, h4⟩

theorem and_one_idem (x : Nat) : (x &&& 1) &&& 1 = x &&& 1 := by
  rw [Nat.and_assoc]
  norm_num

theorem codeBits_le_one (c l : Nat) : ∀ b ∈ codeBits c l, b ≤ 1 := by
  intro b hb
  obtain ⟨i, _, hi⟩ := List.mem_map.1 hb
  rw [← hi]
  exact Nat.and_le_right

/-- The bit loop of `compress` for one code equals pushing its `codeBits`. -/
theorem writeFold_eq (st : BitBuf) (c l : Nat) :
    (List.range l).foldl
      (fun s bit => bitBufferWriteBits s ((c >>> (l - 1 - bit)) &&& 1) 1) st =
    (codeBits c l).foldl bitBufferPush st := by
  unfold codeBits
  rw [List.foldl_map]
  refine List.foldl_ext _ _ st ?_
  intro s i _
  unfold bitBufferWriteBits
  show (List.range 1).foldl _ s = _
  rw [show List.range 1 = [0] by decide]
  simp only [List.foldl_cons, List.foldl_nil]
  rw [Nat.shiftRight_zero, and_one_idem]

theorem compressStep_spec (codes : Nat → Option (Nat × Nat)) (st : BitBuf) (b c l : Nat)
    (hc : codes b = some (c, l)) (hl : l ≠ 0) (hw : BufWf st) :
    ∃ st', compressStep codes st b = some st' ∧
      bufBits st' = bufBits st ++ pathBits codes b ∧ BufWf st' := by
  refine ⟨(codeBits c l).foldl bitBufferPush st, ?_, ?_, ?_⟩
  · unfold compressStep
    rw [hc]
    dsimp only
    rw [if_neg hl, writeFold_eq]
  · rw [(pushList_spec (codeBits c l) st hw (codeBits_le_one c l)).1]
    unfold pathBits
    rw [hc]
  · exact (pushList_spec (codeBits c l) st hw (codeBits_le_one c l)).2

theorem compressGo_spec (codes : Nat → Option (Nat × Nat)) :
    ∀ (B : List Nat) (st : BitBuf), BufWf st →
    (∀ b ∈ B, ∃ c l, codes b = some (c, l) ∧ l ≠ 0) →
    ∃ st', compressGo codes B st = some st' ∧
      bufBits st' = bufBits st ++ (B.map (pathBits codes)).flatten ∧ BufWf st' := by
  intro B
  induction B with
  | nil => intro st hw _; exact ⟨st, rfl, by simp, hw⟩
  | cons b B ih =>
    intro st hw hall
    obtain ⟨c, l, hc, hl⟩ := hall b (by simp)
    obtain ⟨st1, hst1, hb1, hw1⟩ := compressStep_spec codes st b c l hc hl hw
    obtain ⟨st', hst', hb', hw'⟩ := ih st1 hw1 (fun x hx => hall x (by simp [hx]))
    refine ⟨st', ?_, ?_, hw'⟩
    · unfold compressGo
      rw [hst1]
      exact hst'
    · rw [hb', hb1]
      simp [List.append_assoc]

/-- Zero-padding a code from the low end appends zero bits. -/
theorem codeBits_mul_pow (c d : Nat) : ∀ k,
    codeBits (c * 2 ^ k) (d + k) = codeBits c d ++ List.replicate k 0 := by
  intro k
  induction k with
  | zero => simp
  | succ k ih =>
    have h1 : c * 2 ^ (k + 1) = 2 * (c * 2 ^ k) := by ring
    have h2 : d + (k + 1) = (d + k) + 1 := by omega
    rw [h1, h2, codeBits_left, ih, List.replicate_succ', List.append_assoc]

/-- `bitBufferFlush` pads the pending bits with zeros to a full byte and
keeps `bits_used` (which `main` then reads to compute `padding_bits`). -/
theorem bitBufferFlush_spec (st : BitBuf) (hw : BufWf st) :
    bytesToBits (bitBufferFlush st).data =
      bufBits st ++ List.replicate (if st.bits_used > 0 then 8 - st.bits_used else 0) 0 ∧
    (bitBufferFlush st).bits_used = st.bits_used := by
  obtain ⟨hu, hbb⟩ := hw
  unfold bitBufferFlush
  by_cases h0 : st.bits_used > 0
  · rw [if_pos h0]
    have hlt : st.bit_buffer * 2 ^ (8 - st.bits_used) < 256 := by
      have h1 : st.bit_buffer * 2 ^ (8 - st.bits_used) <
          2 ^ st.bits_used * 2 ^ (8 - st.bits_used) :=
        mul_lt_mul_of_pos_right hbb (Nat.pos_pow_of_pos _ (by omega))
      have h2 : 2 ^ st.bits_used * 2 ^ (8 - st.bits_used) = 2 ^ 8 := by
        rw [← pow_add]
        congr 1
        omega
      rw [h2] at h1
      have h3 : (2 : Nat) ^ 8 = 256 := by norm_num
      omega
    have hmod : st.bit_buffer <<< (8 - st.bits_used) % 256 =
        st.bit_buffer * 2 ^ (8 - st.bits_used) := by
      rw [Nat.shiftLeft_eq, Nat.mod_eq_of_lt hlt]
    have hcb : codeBits (st.bit_buffer * 2 ^ (8 - st.bits_used)) 8 =
        codeBits st.bit_buffer st.bits_used ++ List.replicate (8 - st.bits_used) 0 := by
      have := codeBits_mul_pow st.bit_buffer st.bits_used (8 - st.bits_used)
      rwa [show st.bits_used + (8 - st.bits_used) = 8 from by omega] at this
    constructor
    · dsimp only
      rw [hmod, bytesToBits_append, bytesToBits_cons, bufBits_eq]
      simp only [bytesToBits_nil, List.append_nil]
      rw [if_pos h0, hcb, List.append_assoc]
    · rfl
  · rw [if_neg h0]
    have h0' : st.bits_used = 0 := by omega
    constructor
    · rw [bufBits_eq, h0', codeBits_zero]
      simp
    · rfl

theorem bufBits_init : bufBits bitBufferInit = [] := rfl

theorem BufWf_init : BufWf bitBufferInit := by
  constructor
  · show (0 : Nat) < 8
    norm_num
  · show (0 : Nat) < 2 ^ 0
    norm_num

/-- Full specification of `compress`: the payload bytes denote the
concatenated codes of the input followed by the zero padding recorded in
`bits_used`. -/
theorem compress_spec (B : List Nat) (codes : Nat → Option (Nat × Nat))
    (h : ∀ b ∈ B, ∃ c l, codes b = some (c, l) ∧ l ≠ 0) :
    ∃ stf, compress B codes = some stf ∧
      bytesToBits stf.data =
        (B.map (pathBits codes)).flatten ++
          List.replicate (if stf.bits_used > 0 then 8 - stf.bits_used else 0) 0 ∧
      stf.bits_used < 8 ∧
      8 * stf.data.length =
        ((B.map (pathBits codes)).flatten).length +
          (if stf.bits_used > 0 then 8 - stf.bits_used else 0) := by
  obtain ⟨st', hgo, hbits, hwf⟩ := compressGo_spec codes B bitBufferInit BufWf_init
    h
  rw [bufBits_init, List.nil_append] at hbits
  obtain ⟨hfl, hfu⟩ := bitBufferFlush_spec st' hwf
  refine ⟨bitBufferFlush st', ?_, ?_, ?_, ?_⟩
  · unfold compress
    rw [hgo]
    rfl
  · rw [hfl, hbits, hfu]
  · rw [hfu]; exact hwf.1
  · have hlen := congrArg List.length (hfl.trans (by rw [hbits]))
    rw [bytesToBits_length, List.length_append, List.length_replicate] at hlen
    rw [hfu]
    omega

/-! ## Bit-level view of the decoder's `BitReader` -/

theorem RdWf_init (d : List Nat) : RdWf (bitReaderInit d) := by
  refine ⟨rfl, ?_, ?_⟩
  · show (0 : Nat) ≤ 8
    norm_num
  · show (0 : Nat) ≤ d.length
    exact Nat.zero_le _

theorem readerBits_init (d : List Nat) : readerBits (bitReaderInit d) = bytesToBits d := by
  unfold readerBits bitReaderInit
  simp

theorem bitsLeft_init (d : List Nat) : bitsLeft (bitReaderInit d) = 8 * d.length := by
  unfold bitsLeft bitReaderInit
  simp
  ring

theorem readBit_none_inv {r : BitRd} (h : bitReaderReadBit r = none) :
    r.bits_available = 0 ∧ r.pos ≥ r.size := by
  unfold bitReaderReadBit at h
  by_cases h0 : r.bits_available = 0
  · by_cases h1 : r.pos ≥ r.size
    · exact ⟨h0, h1⟩
    · rw [if_pos h0, if_neg h1] at h
      simp at h
  · rw [if_neg h0] at h
    simp at h

theorem readerBits_of_none {r : BitRd} (hw : RdWf r) (h : bitReaderReadBit r = none) :
    readerBits r = [] := by
  obtain ⟨hsz, _, _⟩ := hw
  obtain ⟨h0, h1⟩ := readBit_none_inv h
  unfold readerBits
  rw [h0, List.drop_eq_nil_of_le (by omega : r.data.length ≤ r.pos)]
  simp

/-- Shifting the 8-bit window left by one drops the top bit and keeps the
remaining view. -/
theorem window_shift (buf n : Nat) (hn : n ≤ 8) (h1 : 1 ≤ n) :
    (List.range n).map (fun i => (buf >>> (7 - i)) &&& 1) =
      ((buf >>> 7) &&& 1) ::
        (List.range (n - 1)).map (fun i => (((buf <<< 1) % 256) >>> (7 - i)) &&& 1) := by
  have hform : n = (n - 1) + 1 := by omega
  rw [hform, List.range_succ_eq_map]
  simp only [List.map_cons, Nat.sub_zero, List.map_map]
  congr 1
  refine List.map_congr_left ?_
  intro i hi
  have hilt : i < n - 1 := List.mem_range.1 hi
  have hile : i ≤ 6 := by omega
  simp only [Function.comp]
  rw [shiftr_and_one, shiftr_and_one]
  congr 1
  have hkey : ((buf <<< 1) % 256).testBit (7 - i) = buf.testBit (7 - (i + 1)) := by
    rw [Nat.shiftLeft_eq, pow_one]
    rw [show (256 : Nat) = 2 ^ 8 by norm_num, Nat.testBit_mod_two_pow]
    rw [show 7 - i = (6 - i) + 1 by omega, Nat.testBit_succ]
    rw [show buf * 2 / 2 = buf by omega]
    rw [show 7 - (i + 1) = 6 - i by omega]
    simp [show 6 - i + 1 < 8 by omega]
  rw [hkey]

/-- A successful `bitReaderReadBit` pops exactly the head of the bit view. -/
theorem readBit_some_spec {r : BitRd} {b : Nat} {r' : BitRd} (hw : RdWf r)
    (h : bitReaderReadBit r = some (b, r')) :
    readerBits r = b :: readerBits r' ∧ RdWf r' ∧ bitsLeft r = bitsLeft r' + 1 := by
  obtain ⟨hsz, hav, hps⟩ := hw
  unfold bitReaderReadBit at h
  by_cases h0 : r.bits_available = 0
  · by_cases h1 : r.pos ≥ r.size
    · rw [if_pos h0, if_pos h1] at h
      simp at h
    · rw [if_pos h0, if_neg h1] at h
      simp only [Option.some.injEq, Prod.mk.injEq] at h
      obtain ⟨hb, hr'⟩ := h
      subst hr'
      subst hb
      have hpos : r.pos < r.data.length := by omega
      have hdrop : r.data.drop r.pos = r.data.getD r.pos 0 :: r.data.drop (r.pos + 1) := by
        rw [List.getD_eq_getElem _ _ hpos]
        exact List.drop_eq_getElem_cons hpos
      refine ⟨?_, ?_, ?_⟩
      · show (List.range r.bits_available).map _ ++ bytesToBits (r.data.drop r.pos) =
          _ :: ((List.range 7).map
            (fun i => (((r.data.getD r.pos 0 <<< 1) % 256) >>> (7 - i)) &&& 1) ++
            bytesToBits (r.data.drop (r.pos + 1)))
        rw [h0]
        simp only [List.range_zero, List.map_nil, List.nil_append]
        rw [hdrop, bytesToBits_cons]
        unfold codeBits
        rw [show ∀ L : List Nat, L.map (fun i =>
            (r.data.getD r.pos 0 >>> (8 - 1 - i)) &&& 1) = L.map (fun i =>
            (r.data.getD r.pos 0 >>> (7 - i)) &&& 1) from fun L =>
          List.map_congr_left (fun i _ => by norm_num)]
        rw [window_shift (r.data.getD r.pos 0) 8 (by omega) (by omega)]
        rfl
      · exact ⟨hsz, by show (8 : Nat) - 1 ≤ 8; norm_num,
          by show r.pos + 1 ≤ r.size; omega⟩
      · show (r.size - r.pos) * 8 + r.bits_available =
          (r.size - (r.pos + 1)) * 8 + (8 - 1) + 1
        rw [h0]
        omega
  · rw [if_neg h0] at h
    simp only [Option.some.injEq, Prod.mk.injEq] at h
    obtain ⟨hb, hr'⟩ := h
    subst hr'
    subst hb
    refine ⟨?_, ?_, ?_⟩
    · show (List.range r.bits_available).map _ ++ bytesToBits (r.data.drop r.pos) =
        _ :: ((List.range (r.bits_available - 1)).map
          (fun i => (((r.bit_buffer <<< 1) % 256) >>> (7 - i)) &&& 1) ++
          bytesToBits (r.data.drop r.pos))
      rw [window_shift r.bit_buffer r.bits_available hav (by omega)]
      rfl
    · exact ⟨hsz, by show r.bits_available - 1 ≤ 8; omega, hps⟩
    · show (r.size - r.pos) * 8 + r.bits_available =
        (r.size - r.pos) * 8 + (r.bits_available - 1) + 1
      omega

/-- At end of data the C `size_t` computation always lands inside the
padding: `total_bits - bits_processed` is 0 whenever `bitReaderReadBit`
has returned -1 on a well-formed reader, so the loop always breaks rather
than reporting `Unexpected end of data`. -/
theorem eod_break {r : BitRd} (hw : RdWf r) (h : bitReaderReadBit r = none) :
    ∀ pad : Nat,
      (r.size * 8 % szMod + szMod -
        ((r.pos + (szMod - 1)) % szMod * 8 + (8 - r.bits_available)) % szMod) % szMod
        ≤ pad := by
  obtain ⟨hsz, hav, hps⟩ := hw
  obtain ⟨h0, h1⟩ := readBit_none_inv h
  have hpos : r.pos = r.size := by omega
  have hM : 0 < szMod := by norm_num [szMod]
  have hbp : ((r.pos + (szMod - 1)) % szMod * 8 + (8 - r.bits_available)) % szMod =
      r.size * 8 % szMod := by
    rw [hpos, h0]
    rcases Nat.eq_zero_or_pos r.size with hz | hpz
    · rw [hz]
      norm_num [szMod]
    · have hstep : (r.size + (szMod - 1)) % szMod = (r.size - 1) % szMod := by
        have : r.size + (szMod - 1) = (r.size - 1) + szMod := by omega
        rw [this, Nat.add_mod_right]
      rw [hstep]
      have hmm : ((r.size - 1) % szMod * 8 + (8 - 0)) % szMod =
          ((r.size - 1) * 8 + (8 - 0)) % szMod := by
        conv_lhs => rw [Nat.add_mod]
        conv_rhs => rw [Nat.add_mod]
        rw [Nat.mod_mul_mod]
      rw [hmm]
      have : (r.size - 1) * 8 + (8 - 0) = r.size * 8 := by omega
      rw [this]
  intro pad
  rw [hbp]
  have hlt : r.size * 8 % szMod < szMod := Nat.mod_lt _ hM
  have : r.size * 8 % szMod + szMod - r.size * 8 % szMod = szMod := by omega
  rw [this, Nat.mod_self]
  exact Nat.zero_le _

/-- Simulation: the byte-level loop of `decompress` equals the abstract
bit-list decoder on the reader's unread bits, for any sufficient fuel. -/
theorem decompressLoop_eq_decodeBits (root : Node) : ∀ (fuel : Nat) (current : Node)
    (r : BitRd) (out : List Nat) (osize pad : Nat), RdWf r → bitsLeft r < fuel →
    decompressLoop root fuel current r out osize pad =
      decodeBits root current (readerBits r) out osize := by
  intro fuel
  induction fuel with
  | zero => intro _ _ _ _ _ _ hlt; omega
  | succ fuel ih =>
    intro current r out osize pad hw hlt
    rw [decompressLoop, decodeBits.eq_def]
    dsimp only
    by_cases hout : out.length < osize
    · rw [if_pos hout, if_pos hout]
      cases hread : bitReaderReadBit r with
      | none =>
        rw [readerBits_of_none hw hread]
        dsimp only
        rw [if_pos (eod_break hw hread pad)]
      | some br =>
        obtain ⟨b, r'⟩ := br
        obtain ⟨hbits, hw', hbl⟩ := readBit_some_spec hw hread
        rw [hbits]
        dsimp only
        cases hstep : (if b = 0 then current.left else current.right) with
        | none => rfl
        | some c =>
          dsimp only
          by_cases hleaf : c.left = none ∧ c.right = none
          · rw [if_pos hleaf, if_pos hleaf]
            rw [if_neg (by omega), if_neg (by omega)]
            exact ih root r' (out ++ [c.ch]) osize pad hw' (by omega)
          · rw [if_neg hleaf, if_neg hleaf]
            exact ih c r' out osize pad hw' (by omega)
    · rw [if_neg hout, if_neg hout]

/-- Walking one complete code from the root emits its leaf symbol and
returns to the root. -/
theorem decodeBits_code (root : Node) : ∀ (p : List Nat) (current : Node) (s f : Nat)
    (rest out : List Nat) (osize : Nat),
    subtreeAt current p = some (.leaf s f) → p ≠ [] → out.length < osize →
    decodeBits root current (p ++ rest) out osize =
      decodeBits root root rest (out ++ [s]) osize := by
  intro p
  induction p with
  | nil => intro _ _ _ _ _ _ _ hne _; exact absurd rfl hne
  | cons b p ih =>
    intro current s f rest out osize hsub _ hout
    rw [subtreeAt_cons] at hsub
    cases hstep : (if b = 0 then current.left else current.right) with
    | none => rw [hstep] at hsub; simp at hsub
    | some c =>
      rw [hstep] at hsub
      dsimp only at hsub
      rw [List.cons_append, decodeBits.eq_def]
      dsimp only
      rw [if_pos hout, hstep]
      dsimp only
      cases p with
      | nil =>
        simp only [subtreeAt_nil, Option.some.injEq] at hsub
        rw [hsub]
        rw [if_pos (by constructor <;> rfl)]
        rw [if_neg (by omega)]
        simp
      | cons b' p' =>
        have hnotleaf : ¬(c.left = none ∧ c.right = none) := by
          intro hc
          obtain ⟨c', f', hcf⟩ := eq_leaf_of_no_children hc
          rw [hcf, subtreeAt_cons] at hsub
          simp at hsub
        rw [if_neg hnotleaf]
        exact ih c s f rest out osize hsub (by simp) hout

/-- Decoding the concatenation of complete codes emits the corresponding
symbols and stops at `osize`, leaving any tail (the padding) unread. -/
theorem decodeBits_concat (root : Node) (g : Nat → List Nat) :
    ∀ (rest done : List Nat) (osize : Nat), done.length + rest.length = osize →
    (∀ b ∈ rest, (∃ f, subtreeAt root (g b) = some (.leaf b f)) ∧ g b ≠ []) →
    ∀ tail, decodeBits root root ((rest.map g).flatten ++ tail) done osize =
      some (done ++ rest) := by
  intro rest
  induction rest with
  | nil =>
    intro done osize hlen _ tail
    have hnl : ¬ (done.length < osize) := by simp at hlen; omega
    rw [decodeBits.eq_def]
    dsimp only
    rw [if_neg hnl]
    simp
  | cons b rest ih =>
    intro done osize hlen hall tail
    obtain ⟨⟨f, hf⟩, hne⟩ := hall b (by simp)
    have hflat : ((b :: rest).map g).flatten ++ tail =
        g b ++ ((rest.map g).flatten ++ tail) := by
      simp [List.append_assoc]
    rw [hflat, decodeBits_code root (g b) root b f _ done osize hf hne
      (by simp at hlen ⊢; omega)]
    have := ih (done ++ [b]) osize (by simp at hlen ⊢; omega)
      (fun x hx => hall x (by simp [hx])) tail
    rw [this]
    simp

/-! ## Serialisation lemmas -/

@[simp] theorem toLE_length : ∀ (k n : Nat), (toLE k n).length = k := by
  intro k
  induction k with
  | zero => intro n; rfl
  | succ k ih => intro n; simp [toLE, ih]

theorem leNat_toLE : ∀ (k n : Nat), leNat (toLE k n) = n % 256 ^ k := by
  intro k
  induction k with
  | zero => intro n; simp [toLE, leNat, Nat.mod_one]
  | succ k ih =>
    intro n
    have hpow : (256 : Nat) ^ (k + 1) = 256 * 256 ^ k := by ring
    rw [toLE, hpow, Nat.mod_mul]
    show n % 256 + 256 * leNat (toLE k (n / 256)) = _
    rw [ih]

theorem leNat_toLE_of_lt {k n : Nat} (h : n < 256 ^ k) : leNat (toLE k n) = n := by
  rw [leNat_toLE, Nat.mod_eq_of_lt h]

@[simp] theorem headerBytes_length (h : HuffHeader) : (headerBytes h).length = 30 := by
  simp [headerBytes]

theorem getD_drop_head : ∀ (l : List Nat) (n : Nat), l.getD n 0 = (l.drop n).getD 0 0 := by
  intro l
  induction l with
  | nil => intro n; cases n <;> rfl
  | cons x xs ih =>
    intro n
    cases n with
    | zero => rfl
    | succ m => exact ih m

set_option maxHeartbeats 1000000 in
/-- Parsing the serialised header recovers the in-bounds fields. -/
theorem parseHeader_headerBytes (h : HuffHeader) (rest : List Nat)
    (h1 : h.magic < 256 ^ 4) (h2 : h.version < 256 ^ 2) (h3 : h.original_size < 256 ^ 8)
    (h4 : h.compressed_size < 256 ^ 8) (h5 : h.checksum < 256 ^ 4)
    (h6 : h.tree_size < 256 ^ 2) (h7 : h.padding_bits < 256) (h8 : h.reserved < 256) :
    parseHeader (headerBytes h ++ rest) = h := by
  have hb : headerBytes h ++ rest = toLE 4 h.magic ++ (toLE 2 h.version ++
      (toLE 8 h.original_size ++ (toLE 8 h.compressed_size ++ (toLE 4 h.checksum ++
      (toLE 2 h.tree_size ++ ([h.padding_bits % 256, h.reserved % 256] ++ rest)))))) := by
    simp [headerBytes, List.append_assoc]
  have d4 : (headerBytes h ++ rest).drop 4 = toLE 2 h.version ++
      (toLE 8 h.original_size ++ (toLE 8 h.compressed_size ++ (toLE 4 h.checksum ++
      (toLE 2 h.tree_size ++ ([h.padding_bits % 256, h.reserved % 256] ++ rest))))) := by
    rw [hb, List.drop_left' (toLE_length 4 _)]
  have d6 : (headerBytes h ++ rest).drop 6 = toLE 8 h.original_size ++
      (toLE 8 h.compressed_size ++ (toLE 4 h.checksum ++
      (toLE 2 h.tree_size ++ ([h.padding_bits % 256, h.reserved % 256] ++ rest)))) := by
    rw [show (6 : Nat) = 4 + 2 by norm_num, ← List.drop_drop, d4,
      List.drop_left' (toLE_length 2 _)]
  have d14 : (headerBytes h ++ rest).drop 14 = toLE 8 h.compressed_size ++
      (toLE 4 h.checksum ++
      (toLE 2 h.tree_size ++ ([h.padding_bits % 256, h.reserved % 256] ++ rest))) := by
    rw [show (14 : Nat) = 6 + 8 by norm_num, ← List.drop_drop, d6,
      List.drop_left' (toLE_length 8 _)]
  have d22 : (headerBytes h ++ rest).drop 22 = toLE 4 h.checksum ++
      (toLE 2 h.tree_size ++ ([h.padding_bits % 256, h.reserved % 256] ++ rest)) := by
    rw [show (22 : Nat) = 14 + 8 by norm_num, ← List.drop_drop, d14,
      List.drop_left' (toLE_length 8 _)]
  have d26 : (headerBytes h ++ rest).drop 26 = toLE 2 h.tree_size ++
      ([h.padding_bits % 256, h.reserved % 256] ++ rest) := by
    rw [show (26 : Nat) = 22 + 4 by norm_num, ← List.drop_drop, d22,
      List.drop_left' (toLE_length 4 _)]
  have d28 : (headerBytes h ++ rest).drop 28 =
      [h.padding_bits % 256, h.reserved % 256] ++ rest := by
    rw [show (28 : Nat) = 26 + 2 by norm_num, ← List.drop_drop, d26,
      List.drop_left' (toLE_length 2 _)]
  have hpad : h.padding_bits % 256 = h.padding_bits := Nat.mod_eq_of_lt h7
  have hres : h.reserved % 256 = h.reserved := Nat.mod_eq_of_lt h8
  obtain ⟨m, v, o, cs, ck, ts, pb, rs⟩ := h
  unfold parseHeader
  simp only [HuffHeader.mk.injEq]
  refine ⟨?_, ?_, ?_, ?_, ?_, ?_, ?_, ?_⟩
  · rw [hb, List.take_left' (toLE_length 4 _), leNat_toLE_of_lt h1]
  · rw [d4, List.take_left' (toLE_length 2 _), leNat_toLE_of_lt h2]
  · rw [d6, List.take_left' (toLE_length 8 _), leNat_toLE_of_lt h3]
  · rw [d14, List.take_left' (toLE_length 8 _), leNat_toLE_of_lt h4]
  · rw [d22, List.take_left' (toLE_length 4 _), leNat_toLE_of_lt h5]
  · rw [d26, List.take_left' (toLE_length 2 _), leNat_toLE_of_lt h6]
  · rw [getD_drop_head, d28]
    simpa using hpad
  · rw [getD_drop_head, show (29 : Nat) = 28 + 1 by norm_num, ← List.drop_drop, d28]
    simpa using hres

theorem freqTableBytes_length_aux (freq : Nat → Nat) : ∀ L : List Nat,
    ((L.map (fun i => i :: toLE 4 (freq i))).flatten).length = 5 * L.length := by
  intro L
  induction L with
  | nil => rfl
  | cons i L ih =>
    simp only [List.map_cons, List.flatten_cons, List.length_append, ih,
      List.length_cons, toLE_length, List.length_cons]
    omega

theorem freqTableBytes_length (freq : Nat → Nat) :
    (freqTableBytes freq).length = 5 * countEntries freq := by
  unfold freqTableBytes countEntries
  exact freqTableBytes_length_aux freq _

/-- `readFreqTable` of the serialised nonzero entries reproduces the table
on top of any base assignment. -/
theorem parseFreqTable_fold (freq : Nat → Nat) (hlt : ∀ s, freq s < 4294967296) :
    ∀ (L : List Nat) (f0 : Nat → Nat),
      parseFreqTable ((L.map (fun i => i :: toLE 4 (freq i))).flatten) f0 =
        fun s => if s ∈ L then freq s else f0 s := by
  intro L
  induction L with
  | nil =>
    intro f0
    funext s
    simp [parseFreqTable]
  | cons i L ih =>
    intro f0
    have hto : toLE 4 (freq i) = freq i % 256 :: (freq i / 256) % 256 ::
        (freq i / 256 / 256) % 256 :: (freq i / 256 / 256 / 256) % 256 :: [] := rfl
    have hflat : ((i :: L).map (fun j => j :: toLE 4 (freq j))).flatten =
        i :: freq i % 256 :: (freq i / 256) % 256 :: (freq i / 256 / 256) % 256 ::
          (freq i / 256 / 256 / 256) % 256 ::
          ((L.map (fun j => j :: toLE 4 (freq j))).flatten) := by
    
      simp only [List.map_cons, List.flatten_cons, hto]
      rfl
    rw [hflat, parseFreqTable]
    have hv : leNat [freq i % 256, (freq i / 256) % 256, (freq i / 256 / 256) % 256,
        (freq i / 256 / 256 / 256) % 256] = freq i := by
      rw [show [freq i % 256, (freq i / 256) % 256, (freq i / 256 / 256) % 256,
        (freq i / 256 / 256 / 256) % 256] = toLE 4 (freq i) from hto.symm]
      exact leNat_toLE_of_lt (by have := hlt i; norm_num; omega)
    rw [ih]
    funext s
    by_cases hsl : s ∈ L
    · simp [hsl]
    · by_cases hsi : s = i
      · simp [hsl, hsi, hv]
      · simp [hsl, hsi]

/-- Decoding the serialised table of an in-range frequency function gives
back that function. -/
theorem parseFreqTable_eq (freq : Nat → Nat) (hlt : ∀ s, freq s < 4294967296)
    (hhi : ∀ s, 256 ≤ s → freq s = 0) :
    parseFreqTable (freqTableBytes freq) (fun _ => 0) = freq := by
  unfold freqTableBytes
  rw [parseFreqTable_fold freq hlt]
  funext s
  by_cases hs : s ∈ (List.range 256).filter (fun i => freq i > 0)
  · simp [hs]
  · rw [if_neg hs]
    rcases Nat.lt_or_ge s 256 with hlt256 | hge
    · by_cases hz : freq s = 0
      · omega
      · exact absurd (List.mem_filter.2 ⟨List.mem_range.2 hlt256, by simp; omega⟩) hs
    · exact (hhi s hge).symm

/-! ## CRC32 stays a 32-bit value -/

theorem crc32_table_lt {i : Nat} (h : i < 4294967296) : crc32_table i < 4294967296 := by
  unfold crc32_table
  have hgen : ∀ (L : List Nat) (acc : Nat), acc < 4294967296 →
      (L.foldl (fun crc _ => if crc % 2 = 1 then (crc / 2) ^^^ 0xEDB88320 else crc / 2)
        acc) < 4294967296 := by
    intro L
    induction L with
    | nil => intro acc hacc; exact hacc
    | cons x L ih =>
      intro acc hacc
      rw [List.foldl_cons]
      refine ih _ ?_
      split
      · have h1 : acc / 2 < 2 ^ 32 := by omega
        have h2 : (0xEDB88320 : Nat) < 2 ^ 32 := by norm_num
        have := Nat.xor_lt_two_pow h1 h2
        omega
      · omega
  exact hgen _ i h

theorem crc32_lt (data : List Nat) : crc32 data < 4294967296 := by
  unfold crc32
  have hgen : ∀ (L : List Nat) (acc : Nat), acc < 4294967296 →
      (L.foldl (fun crc b => crc32_table ((crc ^^^ b) % 256) ^^^ (crc / 256)) acc) <
        4294967296 := by
    intro L
    induction L with
    | nil => intro acc hacc; exact hacc
    | cons x L ih =>
      intro acc hacc
      rw [List.foldl_cons]
      refine ih _ ?_
      have h1 : crc32_table ((acc ^^^ x) % 256) < 2 ^ 32 := by
        have := crc32_table_lt (i := (acc ^^^ x) % 256) (by omega)
        omega
      have h2 : acc / 256 < 2 ^ 32 := by omega
      have := Nat.xor_lt_two_pow h1 h2
      omega
  have h1 := hgen data 0xFFFFFFFF (by norm_num)
  have h2 : (0xFFFFFFFF : Nat) < 2 ^ 32 := by norm_num
  have h3 : (data.foldl (fun crc b => crc32_table ((crc ^^^ b) % 256) ^^^ (crc / 256))
      0xFFFFFFFF) ^^^ 0xFFFFFFFF < 2 ^ 32 :=
    Nat.xor_lt_two_pow (by omega) h2
  omega

/-! ## Assembly lemmas -/

theorem card_leafChs_pos : ∀ t : Node, 0 < Multiset.card (leafChs t) := by
  intro t
  induction t with
  | leaf c f => simp
  | two c f l r ihl ihr => simp; omega
  | onlyL c f l ihl => simpa [leafChs] using ihl
  | onlyR c f r ihr => simpa [leafChs] using ihr

/-- A strict tree with a single leaf symbol is a leaf node. -/
theorem strict_single_leaf {t : Node} {s : Nat} (hstrict : strictB t = true)
    (hchs : leafChs t = {s}) : ∃ f, t = .leaf s f := by
  cases t with
  | leaf c f =>
    refine ⟨f, ?_⟩
    have : c = s := by
      have := hchs
      rw [leafChs_leaf] at this
      simpa [Multiset.singleton_inj] using this
    rw [this]
  | two c f l r =>
    exfalso
    rw [leafChs_two] at hchs
    have h1 := card_leafChs_pos l
    have h2 := card_leafChs_pos r
    have := congrArg Multiset.card hchs
    simp at this
    omega
  | onlyL c f l => simp [strictB] at hstrict
  | onlyR c f r => simp [strictB] at hstrict

theorem pathsL_length_le_size {t : Node} {s : Nat} {p : List Nat}
    (h : (s, p) ∈ pathsL t) : p.length ≤ sizeNode t := by
  induction t generalizing s p with
  | leaf c f =>
    simp only [pathsL, List.mem_singleton, Prod.mk.injEq] at h
    rw [h.2]
    simp
  | two c f l r ihl ihr =>
    simp only [pathsL, List.mem_append, List.mem_map] at h
    rcases h with ⟨e, he, heq⟩ | ⟨e, he, heq⟩
    · have := ihl (s := e.1) (p := e.2) (by simpa using he)
      have hp : p = 0 :: e.2 := (congrArg Prod.snd heq).symm
      rw [hp]
      simp only [List.length_cons, sizeNode_two]
      omega
    · have := ihr (s := e.1) (p := e.2) (by simpa using he)
      have hp : p = 1 :: e.2 := (congrArg Prod.snd heq).symm
      rw [hp]
      simp only [List.length_cons, sizeNode_two]
      omega
  | onlyL c f l ihl =>
    simp only [pathsL, List.mem_map] at h
    obtain ⟨e, he, heq⟩ := h
    have := ihl (s := e.1) (p := e.2) (by simpa using he)
    have hp : p = 0 :: e.2 := (congrArg Prod.snd heq).symm
    rw [hp]
    show e.2.length + 1 ≤ 1 + sizeNode l
    omega
  | onlyR c f r ihr =>
    simp only [pathsL, List.mem_map] at h
    obtain ⟨e, he, heq⟩ := h
    have := ihr (s := e.1) (p := e.2) (by simpa using he)
    have hp : p = 1 :: e.2 := (congrArg Prod.snd heq).symm
    rw [hp]
    show e.2.length + 1 ≤ 1 + sizeNode r
    omega

theorem flatten_length_le (g : Nat → List Nat) (bound : Nat)
    (hg : ∀ b, (g b).length ≤ bound) : ∀ B : List Nat,
    ((B.map g).flatten).length ≤ bound * B.length := by
  intro B
  induction B with
  | nil => simp
  | cons b B ih =>
    simp only [List.map_cons, List.flatten_cons, List.length_append, List.length_cons]
    have := hg b
    calc (g b).length + ((B.map g).flatten).length ≤ bound + bound * B.length := by omega
    _ = bound * (B.length + 1) := by ring

/-- Inversion of a successful `compressStep`. -/
theorem compressStep_inv {codes : Nat → Option (Nat × Nat)} {st st' : BitBuf} {b : Nat}
    (h : compressStep codes st b = some st') :
    ∃ c l, codes b = some (c, l) ∧ l ≠ 0 ∧
      st' = (codeBits c l).foldl bitBufferPush st := by
  unfold compressStep at h
  cases hc : codes b with
  | none => rw [hc] at h; simp at h
  | some e =>
    obtain ⟨c, l⟩ := e
    rw [hc] at h
    dsimp only at h
    by_cases hl : l = 0
    · rw [if_pos hl] at h; simp at h
    · rw [if_neg hl] at h
      simp only [Option.some.injEq] at h
      exact ⟨c, l, rfl, hl, by rw [← h, writeFold_eq]⟩

/-- View of a successful `compressGo` run. -/
theorem compressGo_view (codes : Nat → Option (Nat × Nat)) : ∀ (B : List Nat)
    (st st' : BitBuf), BufWf st → compressGo codes B st = some st' →
    bufBits st' = bufBits st ++ (B.map (pathBits codes)).flatten ∧ BufWf st' := by
  intro B
  induction B with
  | nil =>
    intro st st' hw h
    rw [show compressGo codes [] st = some st from rfl] at h
    simp only [Option.some.injEq] at h
    rw [← h]
    exact ⟨by simp, hw⟩
  | cons b B ih =>
    intro st st' hw h
    rw [compressGo] at h
    cases hstep : compressStep codes st b with
    | none => rw [hstep] at h; simp at h
    | some st1 =>
      rw [hstep] at h
      dsimp only at h
      obtain ⟨c, l, hc, hl, hst1⟩ := compressStep_inv hstep
      have hws := pushList_spec (codeBits c l) st hw (codeBits_le_one c l)
      obtain ⟨hview, hw'⟩ := ih st1 st' (hst1 ▸ hws.2) h
      refine ⟨?_, hw'⟩
      rw [hview, hst1, hws.1]
      have hpb : pathBits codes b = codeBits c l := by
        unfold pathBits
        rw [hc]
      simp only [List.map_cons, List.flatten_cons, hpb]
      simp [List.append_assoc]

/-- The value `encodeParts` returns on the success path. -/
theorem encodeParts_eq (B : List Nat) (t : Node) (stf : BitBuf)
    (hne : B.length ≠ 0)
    (hbuild : buildHuffmanTree (buildFreqTable B) = some t)
    (hcomp : compress B (mainCodes t) = some stf)
    (hcnt : countEntries (buildFreqTable B) ≠ 0) :
    encodeParts B = some
      ({ magic := 0x48554646, version := 1, original_size := B.length,
         compressed_size := stf.data.length, checksum := crc32 B,
         tree_size := countEntries (buildFreqTable B),
         padding_bits := if stf.bits_used > 0 then 8 - stf.bits_used else 0,
         reserved := 0 }, freqTableBytes (buildFreqTable B), stf.data) := by
  unfold encodeParts
  rw [if_neg hne]
  dsimp only
  rw [hbuild]
  dsimp only
  rw [hcomp]
  dsimp only
  rw [if_neg hcnt]

/-- `decodeBytes` after the header, table and payload reads succeed. -/
theorem decodeBytes_steps (bs : List Nat) (H : HuffHeader)
    (h30 : ¬ (bs.length ≤ 30)) (hH : parseHeader (bs.take 30) = H)
    (hmagic : H.magic = 0x48554646) (hver : ¬ (H.version > 1))
    (hts : ¬ ((bs.drop 30).length < 5 * H.tree_size))
    (hcs : ¬ (((bs.drop 30).drop (5 * H.tree_size)).length < H.compressed_size)) :
    decodeBytes bs =
      match buildHuffmanTree
          (parseFreqTable ((bs.drop 30).take (5 * H.tree_size)) (fun _ => 0)) with
      | none => none
      | some root =>
        match decompress
            (bitReaderInit (((bs.drop 30).drop (5 * H.tree_size)).take H.compressed_size))
            (some root) H.original_size H.padding_bits with
        | none => none
        | some out => if crc32 out = H.checksum then some out else none := by
  unfold decodeBytes
  rw [if_neg h30]
  dsimp only
  rw [hH]
  rw [if_neg (by rw [hmagic]; simp), if_neg hver, if_neg hts, if_neg hcs]

set_option maxHeartbeats 1600000 in
/-- Master round-trip theorem: on a nonempty byte buffer whose length fits
the 32-bit frequency counters, the encoder succeeds and the decoder
reproduces the input exactly. -/
theorem roundTrip_full (B : List Nat) (hne : B ≠ []) (hbytes : ∀ b ∈ B, b < 256)
    (hlen : B.length < 4294967296) :
    ∃ c, encodeBytes B = some c ∧ decodeBytes c = some B := by
  have hlen0 : B.length ≠ 0 := fun h => hne (List.length_eq_zero.1 h)
  have hb256 : ∀ s, 256 ≤ s → buildFreqTable B s = 0 := fun s hs =>
    List.count_eq_zero.2 (fun hmem => by have := hbytes s hmem; omega)
  have hflt : ∀ s, buildFreqTable B s < 4294967296 := fun s =>
    lt_of_le_of_lt (List.count_le_length s B) hlen
  have hmemf : ∀ b ∈ B, b ∈ (List.range 256).filter (fun i => buildFreqTable B i > 0) :=
    fun b hb => List.mem_filter.2 ⟨List.mem_range.2 (hbytes b hb), by
      simp only [buildFreqTable, gt_iff_lt, decide_eq_true_eq]
      exact List.count_pos_iff_mem.2 hb⟩
  have hcnt : 1 ≤ countEntries (buildFreqTable B) := by
    obtain ⟨b, hb⟩ := List.exists_mem_of_ne_nil B hne
    unfold countEntries
    have := List.length_pos.2 (List.ne_nil_of_mem (hmemf b hb))
    omega
  have hcnt256 : countEntries (buildFreqTable B) ≤ 256 := by
    unfold countEntries
    simpa using List.length_filter_le _ (List.range 256)
  obtain ⟨t, hbuild, hlc, hstrict, hsize⟩ := buildHuffmanTree_spec (buildFreqTable B) hcnt
  have hmemleaf : ∀ b ∈ B, b ∈ leafChs t := fun b hb => by
    rw [hlc]
    exact Multiset.mem_coe.2 (hmemf b hb)
  -- coverage of the code table, and the walking facts in the branching case
  have hcover : ∀ b ∈ B, ∃ c l, mainCodes t b = some (c, l) ∧ l ≠ 0 := by
    intro b hb
    by_cases hleaf : t.left = none ∧ t.right = none
    · obtain ⟨tch, tf, ht⟩ := eq_leaf_of_no_children hleaf
      have hb' : b = tch := by
        have := hmemleaf b hb
        rw [ht, leafChs_leaf] at this
        simpa using this
      refine ⟨0, 1, ?_, one_ne_zero⟩
      unfold mainCodes
      rw [if_neg (by push_neg; exact ⟨hleaf.1, hleaf.2⟩), if_pos (by rw [hb', ht]; rfl)]
    · obtain ⟨p, hp⟩ := leafChs_mem_pathsL t b (hmemleaf b hb)
      obtain ⟨c, l, hct⟩ := codeTable_isSome_of_path hp
      have hpath := codeTable_mem hct
      have hnn : codeBits c l ≠ [] := pathsL_path_ne_nil hpath hleaf
      refine ⟨c, l, ?_, ?_⟩
      · unfold mainCodes
        rw [if_pos (by tauto)]
        exact hct
      · intro hl0
        rw [hl0] at hnn
        exact hnn (by simp [codeBits])
  obtain ⟨stf, hcomp, hbits, hbu, hblen⟩ := compress_spec B (mainCodes t) hcover
  -- path-length bound, for the compressed-size field bound
  have hpblen : ∀ b, (pathBits (mainCodes t) b).length ≤ 511 := by
    intro b
    unfold pathBits
    cases hmc : mainCodes t b with
    | none => simp
    | some e =>
      obtain ⟨c, l⟩ := e
      unfold mainCodes at hmc
      by_cases hch : t.left ≠ none ∨ t.right ≠ none
      · rw [if_pos hch] at hmc
        have hpath := codeTable_mem hmc
        have h1 := pathsL_length_le_size hpath
        rw [codeBits_length] at h1
        dsimp only
        rw [codeBits_length]
        omega
      · rw [if_neg hch] at hmc
        by_cases hbch : b = t.ch
        · rw [if_pos hbch] at hmc
          simp only [Option.some.injEq, Prod.mk.injEq] at hmc
          dsimp only
          rw [codeBits_length]
          omega
        · rw [if_neg hbch] at hmc
          simp at hmc
  have hflatlen : ((B.map (pathBits (mainCodes t))).flatten).length ≤ 511 * B.length :=
    flatten_length_le _ 511 hpblen B
  have hpadle : (if stf.bits_used > 0 then 8 - stf.bits_used else 0) ≤ 8 := by
    split <;> omega
  have hpl64 : stf.data.length < 256 ^ 8 := by
    have h1 : (256 : Nat) ^ 8 = 18446744073709551616 := by norm_num
    omega
  -- the header the encoder writes
  have hpc := encodeParts_eq B t stf hlen0 hbuild hcomp (by omega)
  have henc : encodeBytes B = some (headerBytes { magic := 0x48554646, version := 1, original_size := B.length, compressed_size := stf.data.length, checksum := crc32 B, tree_size := countEntries (buildFreqTable B), padding_bits := if stf.bits_used > 0 then 8 - stf.bits_used else 0, reserved := 0 } ++ freqTableBytes (buildFreqTable B) ++ stf.data) := by
    unfold encodeBytes
    rw [hpc]
    rfl
  refine ⟨_, henc, ?_⟩
  -- abbreviations for the container pieces
  set H : HuffHeader := { magic := 0x48554646, version := 1, original_size := B.length, compressed_size := stf.data.length, checksum := crc32 B, tree_size := countEntries (buildFreqTable B), padding_bits := if stf.bits_used > 0 then 8 - stf.bits_used else 0, reserved := 0 } with hHdef
  have hpad256 : H.padding_bits < 256 := by
    rw [hHdef]
    show (if stf.bits_used > 0 then 8 - stf.bits_used else 0) < 256
    split <;> omega
  have htb : (freqTableBytes (buildFreqTable B)).length =
      5 * countEntries (buildFreqTable B) := freqTableBytes_length _
  have hassoc : headerBytes H ++ freqTableBytes (buildFreqTable B) ++ stf.data =
      headerBytes H ++ (freqTableBytes (buildFreqTable B) ++ stf.data) := by
    rw [List.append_assoc]
  have hbslen : (headerBytes H ++ freqTableBytes (buildFreqTable B) ++ stf.data).length =
      30 + 5 * countEntries (buildFreqTable B) + stf.data.length := by
    simp [htb]
    omega
  have htake30 : (headerBytes H ++ freqTableBytes (buildFreqTable B) ++ stf.data).take 30 =
      headerBytes H := by
    rw [hassoc, List.take_left' (headerBytes_length H)]
  have hdrop30 : (headerBytes H ++ freqTableBytes (buildFreqTable B) ++ stf.data).drop 30 =
      freqTableBytes (buildFreqTable B) ++ stf.data := by
    rw [hassoc, List.drop_left' (headerBytes_length H)]
  have hparse : parseHeader ((headerBytes H ++ freqTableBytes (buildFreqTable B) ++
      stf.data).take 30) = H := by
    rw [htake30, show headerBytes H = headerBytes H ++ [] by simp]
    refine parseHeader_headerBytes H [] (by rw [hHdef]; norm_num) (by rw [hHdef]; norm_num)
      ?_ ?_ ?_ ?_ ?_ ?_
    · show B.length < 256 ^ 8
      have : (256 : Nat) ^ 8 = 18446744073709551616 := by norm_num
      omega
    · exact hpl64
    · show crc32 B < 256 ^ 4
      have := crc32_lt B
      norm_num
      omega
    · show countEntries (buildFreqTable B) < 256 ^ 2
      norm_num
      omega
    · exact hpad256
    · show (0 : Nat) < 256
      norm_num
  have hfreq' : parseFreqTable (((headerBytes H ++ freqTableBytes (buildFreqTable B) ++
      stf.data).drop 30).take (5 * H.tree_size)) (fun _ => 0) = buildFreqTable B := by
    rw [hdrop30, show H.tree_size = countEntries (buildFreqTable B) from rfl, ← htb,
      List.take_left]
    exact parseFreqTable_eq _ hflt hb256
  have hpayload : (((headerBytes H ++ freqTableBytes (buildFreqTable B) ++
      stf.data).drop 30).drop (5 * H.tree_size)).take H.compressed_size = stf.data := by
    rw [hdrop30, show H.tree_size = countEntries (buildFreqTable B) from rfl, ← htb,
      List.drop_left, show H.compressed_size = stf.data.length from rfl, List.take_length]
  rw [decodeBytes_steps _ H (by omega) hparse rfl (by rw [hHdef]; norm_num)
    (by rw [hdrop30]; simp [htb])
    (by rw [hdrop30, show H.tree_size = countEntries (buildFreqTable B) from rfl, ← htb,
          List.drop_left]
        simp)]
  rw [hfreq', hbuild, hpayload]
  dsimp only
  -- the decompress call
  have hosize : H.original_size = B.length := rfl
  have hdec : decompress (bitReaderInit stf.data) (some t) H.original_size H.padding_bits =
      some B := by
    rw [hosize]
    unfold decompress
    dsimp only
    rw [if_neg hlen0]
    by_cases hleaf : t.left = none ∧ t.right = none
    · rw [if_pos hleaf]
      obtain ⟨tch, tf, ht⟩ := eq_leaf_of_no_children hleaf
      have hall : ∀ b ∈ B, b = tch := by
        intro b hb
        have := hmemleaf b hb
        rw [ht, leafChs_leaf] at this
        simpa using this
      have hrep : B = List.replicate B.length tch := List.eq_replicate.2 ⟨rfl, hall⟩
      rw [ht]
      show some (List.replicate B.length tch) = some B
      rw [← hrep]
    · rw [if_neg hleaf]
      rw [decompressLoop_eq_decodeBits t (bitsLeft (bitReaderInit stf.data) + 1) t
        (bitReaderInit stf.data) [] B.length H.padding_bits (RdWf_init _) (by omega)]
      rw [readerBits_init, hbits]
      have hwalk : ∀ b ∈ B, (∃ f, subtreeAt t (pathBits (mainCodes t) b) =
          some (.leaf b f)) ∧ pathBits (mainCodes t) b ≠ [] := by
        intro b hb
        obtain ⟨p, hp⟩ := leafChs_mem_pathsL t b (hmemleaf b hb)
        obtain ⟨c, l, hct⟩ := codeTable_isSome_of_path hp
        have hmc : mainCodes t b = some (c, l) := by
          unfold mainCodes
          rw [if_pos (by tauto)]
          exact hct
        have hpath := codeTable_mem hct
        have hpb : pathBits (mainCodes t) b = codeBits c l := by
          unfold pathBits
          rw [hmc]
        obtain ⟨f, hf⟩ := pathsL_subtreeAt t b (codeBits c l) hpath
        exact ⟨⟨f, by rw [hpb]; exact hf⟩,
          by rw [hpb]; exact pathsL_path_ne_nil hpath hleaf⟩
      have := decodeBits_concat t (pathBits (mainCodes t)) B [] B.length (by simp)
        hwalk (List.replicate (if stf.bits_used > 0 then 8 - stf.bits_used else 0) 0)
      rw [this]
      simp
  rw [hdec]
  dsimp only
  rw [if_pos (show crc32 B = H.checksum from rfl)]

/-! ## Helper lemmas for the claim theorems -/

/-- A duplicate-free list whose elements all equal `s` and which contains
`s` is exactly `[s]`. -/
theorem nodup_all_eq {l : List Nat} {s : Nat} (hnd : l.Nodup) (hmem : s ∈ l)
    (hall : ∀ x ∈ l, x = s) : l = [s] := by
  cases l with
  | nil => simp at hmem
  | cons a t =>
    have ha : a = s := hall a (by simp)
    have ht : t = [] := by
      cases t with
      | nil => rfl
      | cons b u =>
        exfalso
        have hb : b = s := hall b (by simp)
        rw [List.nodup_cons] at hnd
        exact hnd.1 (by rw [ha, ← hb]; simp)
    rw [ha, ht]

/-- When exactly one symbol below 256 has positive frequency, the encoder's
symbol scan finds exactly that symbol. -/
theorem filter_range_single {freq : Nat → Nat} {s : Nat} (hs : s < 256)
    (hpos : 0 < freq s) (huniq : ∀ i, 0 < freq i → i = s) :
    (List.range 256).filter (fun i => freq i > 0) = [s] := by
  refine nodup_all_eq (List.Nodup.filter _ (List.nodup_range 256)) ?_ ?_
  · exact List.mem_filter.2 ⟨List.mem_range.2 hs, by simpa using hpos⟩
  · intro x hx
    have hx' := List.mem_filter.1 hx
    exact huniq x (by simpa using hx'.2)

/-- For a one-symbol frequency table, `buildHuffmanTree` returns a bare
leaf carrying that symbol. -/
theorem buildTree_single {freq : Nat → Nat} {s : Nat} (hs : s < 256)
    (hpos : 0 < freq s) (huniq : ∀ i, 0 < freq i → i = s) :
    ∃ f, buildHuffmanTree freq = some (.leaf s f) := by
  have hflt := filter_range_single hs hpos huniq
  have hcnt : countEntries freq = 1 := by
    unfold countEntries
    rw [hflt]
    rfl
  obtain ⟨t, ht, hlc, hstrict, _⟩ := buildHuffmanTree_spec freq (by omega)
  rw [hflt] at hlc
  have hsing : leafChs t = {s} := by simpa using hlc
  obtain ⟨f, hf⟩ := strict_single_leaf hstrict hsing
  exact ⟨f, by rw [ht, hf]⟩

/-- A tree only comes out of `buildHuffmanTree` when at least one symbol
has positive frequency. -/
theorem countEntries_pos_of_build {freq : Nat → Nat} {t : Node}
    (h : buildHuffmanTree freq = some t) : 1 ≤ countEntries freq := by
  by_contra hc
  have h0 : (initHeap freq).2 = 0 := by
    rw [(initHeap_spec freq).2.1]
    omega
  unfold buildHuffmanTree at h
  rw [if_pos h0] at h
  simp at h

/-- A bit list that `nullDriven` flags makes the abstract tree-walk decoder
fail. -/
theorem decodeBits_none_of_nullDriven : ∀ (bits : List Nat) (current root : Node)
    (out : List Nat) (osize : Nat),
    nullDriven root current bits out.length osize = true →
    decodeBits root current bits out osize = none := by
  intro bits
  induction bits with
  | nil =>
    intro current root out osize h
    cases osize with
    | zero => simp [nullDriven] at h
    | succ n =>
      rw [nullDriven] at h
      by_cases ho : out.length < n + 1
      · rw [if_pos ho] at h
        simp at h
      · rw [if_neg ho] at h
        simp at h
  | cons b rest ih =>
    intro current root out osize h
    cases osize with
    | zero => simp [nullDriven] at h
    | succ n =>
      rw [nullDriven] at h
      by_cases ho : out.length < n + 1
      · rw [if_pos ho] at h
        rw [decodeBits.eq_def]
        dsimp only
        rw [if_pos ho]
        cases hc : (if b = 0 then current.left else current.right) with
        | none => rfl
        | some c =>
          rw [hc] at h
          dsimp only at h
          dsimp only
          by_cases hleaf : c.left = none ∧ c.right = none
          · rw [if_pos hleaf] at h ⊢
            rw [if_neg (show ¬ out.length ≥ n + 1 by omega)]
            have h' : nullDriven root root rest (out ++ [c.ch]).length (n + 1) = true := by
              simpa using h
            exact ih root root (out ++ [c.ch]) (n + 1) h'
          · rw [if_neg hleaf] at h ⊢
            exact ih c root out (n + 1) h
      · rw [if_neg ho] at h
        simp at h

/-- Inversion of a successful `compress` run: it is `bitBufferFlush` of a
successful main loop. -/
theorem compress_inv {B : List Nat} {codes : Nat → Option (Nat × Nat)} {stf : BitBuf}
    (h : compress B codes = some stf) :
    ∃ st, compressGo codes B bitBufferInit = some st ∧ stf = bitBufferFlush st := by
  unfold compress at h
  cases hg : compressGo codes B bitBufferInit with
  | none =>
    rw [hg] at h
    simp at h
  | some st =>
    rw [hg] at h
    simp only [Option.map_some', Option.some.injEq] at h
    exact ⟨st, rfl, h.symm⟩

/-- Inversion of a successful `encodeParts` run: the tree build and
`compress` succeeded and the header fields are the values `main` writes. -/
theorem encodeParts_inv {B : List Nat} {H : HuffHeader} {tb pl : List Nat}
    (h : encodeParts B = some (H, tb, pl)) :
    ∃ root st, buildHuffmanTree (buildFreqTable B) = some root ∧
      compress B (mainCodes root) = some st ∧
      H = { magic := 0x48554646, version := 1, original_size := B.length,
            compressed_size := st.data.length, checksum := crc32 B,
            tree_size := countEntries (buildFreqTable B),
            padding_bits := if st.bits_used > 0 then 8 - st.bits_used else 0,
            reserved := 0 } ∧
      tb = freqTableBytes (buildFreqTable B) ∧ pl = st.data := by
  unfold encodeParts at h
  by_cases h0 : B.length = 0
  · rw [if_pos h0] at h
    simp at h
  · rw [if_neg h0] at h
    dsimp only at h
    cases hb : buildHuffmanTree (buildFreqTable B) with
    | none =>
      rw [hb] at h
      simp at h
    | some root =>
      rw [hb] at h
      dsimp only at h
      cases hc : compress B (mainCodes root) with
      | none =>
        rw [hc] at h
        simp at h
      | some st =>
        rw [hc] at h
        dsimp only at h
        by_cases hcnt : countEntries (buildFreqTable B) = 0
        · rw [if_pos hcnt] at h
          simp at h
        · rw [if_neg hcnt] at h
          simp only [Option.some.injEq, Prod.mk.injEq] at h
          exact ⟨root, st, rfl, hc, h.1.symm, h.2.1.symm, h.2.2.symm⟩

/-! ## The claims -/

/-- Claim C2 (confirmed): encoding is deterministic (the embedding of the
encoder is a function of the input buffer alone), and for every frequency
table that fits the persisted format (32-bit counts, symbols below 256),
rebuilding the table from its serialized bytes gives back the same table,
so the decoder's `buildHuffmanTree` returns the identical tree and hence
identical code assignments for every symbol. -/
theorem C2_determinism (freq : Nat → Nat) (hlt : ∀ s, freq s < 4294967296)
    (hhi : ∀ s, 256 ≤ s → freq s = 0) :
    (∀ B₁ B₂ : List Nat, B₁ = B₂ → encodeBytes B₁ = encodeBytes B₂) ∧
    buildHuffmanTree (parseFreqTable (freqTableBytes freq) (fun _ => 0)) =
      buildHuffmanTree freq ∧
    (∀ s, (buildHuffmanTree (parseFreqTable (freqTableBytes freq) (fun _ => 0))).map
        (fun t => mainCodes t s) =
      (buildHuffmanTree freq).map (fun t => mainCodes t s)) := by
  have hp := parseFreqTable_eq freq hlt hhi
  exact ⟨fun B₁ B₂ h => by rw [h], by rw [hp], fun s => by rw [hp]⟩

/-- Claim C2, witness: the decoder rebuilds the encoder's tree for the
concrete table `{97 ↦ 2, 98 ↦ 1}`. -/
theorem C2_determinism_witness :
    buildHuffmanTree (parseFreqTable
        (freqTableBytes (fun s => if s = 97 then 2 else if s = 98 then 1 else 0))
        (fun _ => 0)) =
      buildHuffmanTree (fun s => if s = 97 then 2 else if s = 98 then 1 else 0) :=
  (C2_determinism (fun s => if s = 97 then 2 else if s = 98 then 1 else 0)
    (fun s => by
      dsimp only
      split
      · norm_num
      · split <;> norm_num)
    (fun s hs => by
      dsimp only
      rw [if_neg (by omega), if_neg (by omega)])).2.1

/-- Claim C4 (corrected): the encoder does NOT emit a container for the
empty input — `main` rejects `file_size <= 0` — and on the decoder side a
container with `original_size = 0` is rejected by `decompress`, so no
"empty container" round-trips; the spec's required behaviour does not hold
(see the counterexample). -/
theorem C4_empty_input (B : List Nat) (h : B.length = 0) :
    encodeBytes B = none ∧
    (∀ (r : BitRd) (root? : Option Node) (pad : Nat), decompress r root? 0 pad = none) := by
  constructor
  · unfold encodeBytes encodeParts
    rw [if_pos h]
    rfl
  · intro r root? pad
    cases root? with
    | none => rfl
    | some root =>
      unfold decompress
      dsimp only
      rw [if_pos rfl]

/-- Claim C4, counterexample to the spec's wording: encoding the empty
buffer does not succeed — it yields no container at all. -/
theorem C4_counterexample : encodeBytes [] = none := by decide

/-- Claim C4, witness: the empty-input theorem applied to `[]`. -/
theorem C4_empty_input_witness :
    encodeBytes [] = none ∧
    decompress (bitReaderInit []) (some (Node.leaf 0 0)) 0 0 = none :=
  ⟨(C4_empty_input [] rfl).1,
   (C4_empty_input [] rfl).2 (bitReaderInit []) (some (Node.leaf 0 0)) 0⟩

/-- Claim C6 (corrected): every tree `huffman-01`'s `buildHuffmanTree`
returns is a strict binary tree — every internal node has exactly two
children.  The claim is false for the `huffman-00` variant it also cites:
for a one-symbol table that encoder builds a root with a single left child
(see the counterexample). -/
theorem C6_strict_tree (freq : Nat → Nat) (t : Node)
    (ht : buildHuffmanTree freq = some t) : strictB t = true := by
  have hc := countEntries_pos_of_build ht
  obtain ⟨t', ht', _, hstrict, _⟩ := buildHuffmanTree_spec freq hc
  rw [ht] at ht'
  simp only [Option.some.injEq] at ht'
  exact ht' ▸ hstrict

/-- Claim C6, counterexample to the spec's wording: `huffman-00`'s
`buildHuffmanTree` on a one-symbol table returns a root with only a left
child (`root->left = single_node`, `right = NULL`), which is not strict. -/
theorem C6_counterexample :
    H0.buildHuffmanTree00 (fun s => if s = 65 then 5 else 0) =
      Node.onlyL 36 5 (Node.leaf 65 5) ∧
    strictB (H0.buildHuffmanTree00 (fun s => if s = 65 then 5 else 0)) = false := by
  decide

/-- Claim C6, witness: strictness of the tree built for the concrete table
`{97 ↦ 2, 98 ↦ 1}`. -/
theorem C6_strict_tree_witness :
    strictB ((buildHuffmanTree
        (fun s => if s = 97 then 2 else if s = 98 then 1 else 0)).getD dfltNode) = true :=
  C6_strict_tree (fun s => if s = 97 then 2 else if s = 98 then 1 else 0)
    ((buildHuffmanTree
        (fun s => if s = 97 then 2 else if s = 98 then 1 else 0)).getD dfltNode)
    (by rfl)

/-- Claim C7 (confirmed): in every container the encoder emits,
`original_size` is the input length, `compressed_size` is the number of
payload bytes that follow the frequency table, `padding_bits` is below 8,
and the payload's bits are exactly the concatenated codes of the input
bytes followed by `padding_bits` zero filler bits. -/
theorem C7_header_accounting (B : List Nat) (H : HuffHeader) (tb pl : List Nat)
    (h : encodeParts B = some (H, tb, pl)) :
    H.original_size = B.length ∧ H.compressed_size = pl.length ∧
    H.padding_bits < 8 ∧
    bytesToBits pl =
      (B.map (pathBits (mainTable B))).flatten ++ List.replicate H.padding_bits 0 := by
  obtain ⟨root, st, hb, hc, hH, htb, hpl⟩ := encodeParts_inv h
  obtain ⟨st', hg, hfl⟩ := compress_inv hc
  obtain ⟨hview, hwf'⟩ := compressGo_view (mainCodes root) B bitBufferInit st'
    BufWf_init hg
  obtain ⟨hfb, hfu⟩ := bitBufferFlush_spec st' hwf'
  rw [bufBits_init, List.nil_append] at hview
  have hmt : mainTable B = mainCodes root := by
    unfold mainTable
    rw [hb]
  subst hH hpl hfl
  refine ⟨rfl, rfl, ?_, ?_⟩
  · show (if (bitBufferFlush st').bits_used > 0
        then 8 - (bitBufferFlush st').bits_used else 0) < 8
    rw [hfu]
    have := hwf'.1
    split <;> omega
  · show bytesToBits (bitBufferFlush st').data =
      (B.map (pathBits (mainTable B))).flatten ++
        List.replicate (if (bitBufferFlush st').bits_used > 0
          then 8 - (bitBufferFlush st').bits_used else 0) 0
    rw [hfb, hview, hmt, hfu]

/-- Claim C7, witness: the header-accounting theorem applied to the
encoder's output for `[97, 97, 98]`. -/
theorem C7_header_accounting_witness :
    ((encodeParts [97, 97, 98]).getD (dfltHeader, [], [])).1.original_size =
      ([97, 97, 98] : List Nat).length ∧
    ((encodeParts [97, 97, 98]).getD (dfltHeader, [], [])).1.compressed_size =
      ((encodeParts [97, 97, 98]).getD (dfltHeader, [], [])).2.2.length ∧
    ((encodeParts [97, 97, 98]).getD (dfltHeader, [], [])).1.padding_bits < 8 ∧
    bytesToBits ((encodeParts [97, 97, 98]).getD (dfltHeader, [], [])).2.2 =
      (([97, 97, 98] : List Nat).map (pathBits (mainTable [97, 97, 98]))).flatten ++
        List.replicate
          ((encodeParts [97, 97, 98]).getD (dfltHeader, [], [])).1.padding_bits 0 :=
  C7_header_accounting [97, 97, 98]
    ((encodeParts [97, 97, 98]).getD (dfltHeader, [], [])).1
    ((encodeParts [97, 97, 98]).getD (dfltHeader, [], [])).2.1
    ((encodeParts [97, 97, 98]).getD (dfltHeader, [], [])).2.2
    (by rfl)

/-- Claim C8 (corrected): the decoder rejects every buffer whose parsed
magic differs from the constant and every buffer whose parsed version
exceeds 1, with a clean error (`none`, never a crash); but it does NOT
fail on every version mismatch — version 0, which the encoder never
writes, is accepted because `readHeader` only checks `version > 1` (see
the counterexample). -/
theorem C8_magic_version (bs : List Nat)
    (h : (parseHeader (bs.take 30)).magic ≠ 0x48554646 ∨
         (parseHeader (bs.take 30)).version > 1) :
    decodeBytes bs = none := by
  unfold decodeBytes
  by_cases h30 : bs.length ≤ 30
  · rw [if_pos h30]
  · rw [if_neg h30]
    dsimp only
    rcases h with hm | hv
    · rw [if_pos hm]
    · by_cases hm' : (parseHeader (bs.take 30)).magic ≠ 0x48554646
      · rw [if_pos hm']
      · rw [if_neg hm', if_pos hv]

/-- Claim C8, counterexample to the spec's wording: the container for
`[97]` with its version field overwritten to 0 still decodes
successfully, so a version mismatch is not always rejected. -/
theorem C8_counterexample :
    (parseHeader (c97v0.take 30)).version = 0 ∧ decodeBytes c97v0 = some [97] := by
  decide

/-- Claim C8, witness: a 31-byte all-zero buffer parses with magic 0 and
is rejected. -/
theorem C8_magic_version_witness : decodeBytes (List.replicate 31 0) = none :=
  C8_magic_version (List.replicate 31 0) (Or.inl (by decide))

/-- Claim C9 (confirmed): whenever the bit stream drives the decoder's
tree walk into a missing (NULL) child before `original_size` symbols are
produced, `decompress` fails with an error (`none`) instead of producing
output, for every reader state, tree and padding value. -/
theorem C9_null_child (root : Node) (r : BitRd) (osize pad : Nat)
    (hwf : RdWf r) (hos : osize ≠ 0)
    (hnl : ¬(root.left = none ∧ root.right = none))
    (hdrive : nullDriven root root (readerBits r) 0 osize = true) :
    decompress r (some root) osize pad = none := by
  unfold decompress
  dsimp only
  rw [if_neg hos, if_neg hnl]
  rw [decompressLoop_eq_decodeBits root (bitsLeft r + 1) root r [] osize pad hwf
    (by omega)]
  exact decodeBits_none_of_nullDriven (readerBits r) root root [] osize hdrive

/-- Claim C9, witness: a one-child tree and the all-ones payload byte
drive the first step to the missing right child, and `decompress` fails. -/
theorem C9_null_child_witness :
    decompress (bitReaderInit [255]) (some (Node.onlyL 0 3 (Node.leaf 7 3))) 1 0 =
      none :=
  C9_null_child (Node.onlyL 0 3 (Node.leaf 7 3)) (bitReaderInit [255]) 1 0
    (RdWf_init [255]) (by decide) (by decide) (by decide)

/-- Claim C10 (confirmed): for a frequency table with exactly one nonzero
symbol and a nonzero `original_size`, the decode path outputs
`original_size` copies of that symbol and is identical for any two
payloads — the payload bits are never read on the single-leaf path, so
payload corruption is invisible to the tree walk. -/
theorem C10_payload_blind (freq : Nat → Nat) (s : Nat) (hs : s < 256)
    (hpos : 0 < freq s) (huniq : ∀ i, 0 < freq i → i = s)
    (osize pad : Nat) (hos : osize ≠ 0) (p₁ p₂ : List Nat) :
    decodeCore freq p₁ osize pad = some (List.replicate osize s) ∧
    decodeCore freq p₁ osize pad = decodeCore freq p₂ osize pad := by
  obtain ⟨f, hf⟩ := buildTree_single hs hpos huniq
  have key : ∀ p : List Nat, decodeCore freq p osize pad =
      some (List.replicate osize s) := by
    intro p
    unfold decodeCore
    rw [hf]
    unfold decompress
    dsimp only
    rw [if_neg hos, if_pos ⟨rfl, rfl⟩]
    rfl
  exact ⟨key p₁, (key p₁).trans (key p₂).symm⟩

/-- Claim C10, witness: the payload-blindness theorem at the concrete
table `{66 ↦ 7}` with the two payloads `[170]` and `[0]`. -/
theorem C10_payload_blind_witness :
    decodeCore (fun t => if t = 66 then 7 else 0) [170] 3 0 =
      some (List.replicate 3 66) ∧
    decodeCore (fun t => if t = 66 then 7 else 0) [170] 3 0 =
      decodeCore (fun t => if t = 66 then 7 else 0) [0] 3 0 :=
  C10_payload_blind (fun t => if t = 66 then 7 else 0) 66 (by decide) (by decide)
    (fun i hi => by
      dsimp only at hi
      by_cases h : i = 66
      · exact h
      · rw [if_neg h] at hi
        omega)
    3 0 (by decide) [170] [0]
